import Mathlib

/-!
Verification of the AVL tree engine in `include/avltree.hpp` (namespace
`avltree`), instantiated at the set flavor `AVLTree<uint32_t>`:
`Key = Value = Nat`, `KeyOfValue = KeyIsValue` (identity) and
`KeyCompare = std::less`.  The pointer graph of `AVLTreeBase::Node`
(`_value`, `_height`, `_parent`, `_left`, `_right`) is embedded as an
inductive binary tree carrying the stored height; the `_parent` chain of a
node is represented by the path from the root to that node, which is what
the parent pointers denote in every state the library itself constructs.
C++ exceptions become an `Except` value returned next to the (possibly
mutated) tree state.
-/

namespace Avltree

/-- A node of `AVLTreeBase`: `_value` (which is also the key under
`KeyIsValue`), the stored `_height`, and the `_left`/`_right` children.
`nil` is a null child pointer. -/
inductive NTree where
  | nil : NTree
  | node (value : Nat) (height : Int) (left right : NTree) : NTree
deriving DecidableEq, Repr

open NTree

/-- `Node::compare(key)` for `std::less<Nat>`: `ab = key < nodeKey`,
`ba = nodeKey < key`; returns 0 when neither holds, -1 when `ab` only,
1 otherwise. -/
def cmpKey (key nodeKey : Nat) : Int :=
  if key < nodeKey then -1 else if nodeKey < key then 1 else 0

/-- Height of a possibly-null child: `(x != nullptr) ? x->height() : 0`. -/
def childHeight : NTree → Int
  | nil => 0
  | node _ h _ _ => h

/-- `Node::balance()`: right child height minus left child height.  On a
null pointer this is the `(child != nullptr) ? child->balance() : 0`
guard used by `rebalance_node`. -/
def balance : NTree → Int
  | nil => 0
  | node _ _ l r => childHeight r - childHeight l

/-- `Node::new_height()`: `max(left_height, right_height) + 1`. -/
def new_height : NTree → Int
  | nil => 0
  | node _ _ l r => max (childHeight l) (childHeight r) + 1

/-- A step from a node to one of its children. -/
inductive Dir where
  | left : Dir
  | right : Dir
deriving DecidableEq, Repr

/-- A path from the root down to a node; this is the functional stand-in
for a node handle together with its `_parent` chain. -/
abbrev Path := List Dir

/-- Follow a path from a (sub)tree; `none` when the path walks off a null
pointer. -/
def subtreeAt : NTree → Path → Option NTree
  | t, [] => some t
  | nil, _ :: _ => none
  | node _ _ l _, Dir.left :: p => subtreeAt l p
  | node _ _ _ r, Dir.right :: p => subtreeAt r p

/-- Replace the subtree at a path (the functional form of re-linking a
child pointer of the node above that position). -/
def replaceAt : NTree → Path → NTree → NTree
  | _, [], s => s
  | nil, _ :: _, _ => nil
  | node v h l r, Dir.left :: p, s => node v h (replaceAt l p s) r
  | node v h l r, Dir.right :: p, s => node v h l (replaceAt r p s)

/-- Overwrite the stored `_height` of the node at a path. -/
def setHeightAt (t : NTree) (p : Path) (h : Int) : NTree :=
  match subtreeAt t p with
  | some (node v _ l r) => replaceAt t p (node v h l r)
  | _ => t

/-- `rotate_left` acting on the subtree rooted at the rotation root: the
right child becomes the pivot, the pivot's left child is transferred to
the rotation root, and the two heights are recomputed (rotation root
first, then the pivot, exactly as in the source).  When the right child
is null the C++ code dereferences a null pointer (undefined behavior);
that case is unreachable from `update_node` whenever all stored heights
are nonnegative, and is modelled as a no-op. -/
def rotate_left_sub : NTree → NTree
  | node v h l (node pv ph pl pr) =>
    let rotationRoot := node v (new_height (node v h l pl)) l pl
    node pv (new_height (node pv ph rotationRoot pr)) rotationRoot pr
  | t => t

/-- `rotate_right` acting on the subtree rooted at the rotation root
(mirror image of `rotate_left_sub`). -/
def rotate_right_sub : NTree → NTree
  | node v h (node pv ph pl pr) r =>
    let rotationRoot := node v (new_height (node v h pr r)) pr r
    node pv (new_height (node pv ph pl rotationRoot)) pl rotationRoot
  | t => t

/-- `AVLTreeBase::rotate_left(node-at-p)`; the re-linking of the rotation
parent (or of `_root`) is the surrounding `replaceAt`. -/
def rotate_left (t : NTree) (p : Path) : NTree :=
  match subtreeAt t p with
  | some s => replaceAt t p (rotate_left_sub s)
  | none => t

/-- `AVLTreeBase::rotate_right(node-at-p)`. -/
def rotate_right (t : NTree) (p : Path) : NTree :=
  match subtreeAt t p with
  | some s => replaceAt t p (rotate_right_sub s)
  | none => t

/-- `AVLTreeBase::rebalance_node(node-at-p)`: chooses single or double
rotation from the node's balance and the relevant child's balance
(`(child != nullptr) ? child->balance() : 0` is `balance` on `nil`). -/
def rebalance_node (t : NTree) (p : Path) : NTree :=
  match subtreeAt t p with
  | some (node v h l r) =>
    let bal := balance (node v h l r)
    if bal = 0 then t
    else if bal < 0 then
      if balance l > 0 then rotate_right (rotate_left t (p ++ [Dir.left])) p
      else rotate_right t p
    else
      if balance r < 0 then rotate_left (rotate_right t (p ++ [Dir.right])) p
      else rotate_left t p
  | _ => t

/-- `AVLTreeBase::update_node`: walk from the node at `p` toward the root;
at each node write `new_height`, stop after one `rebalance_node` when the
balance leaves `[-1, 1]`, stop when the height did not change, otherwise
step to the parent (`p.dropLast`); at the root the C++ loop re-runs on
the same node and then stops because the height is now stable.  The fuel
argument bounds the loop (callers pass `p.length + 2`, which is always
enough). -/
def update_node : NTree → Path → Nat → NTree
  | t, _, 0 => t
  | t, p, fuel + 1 =>
    match subtreeAt t p with
    | some (node v h l r) =>
      let old_h := h
      let nh := new_height (node v h l r)
      let bal := balance (node v h l r)
      let t1 := setHeightAt t p nh
      if bal > 1 ∨ bal < -1 then rebalance_node t1 p
      else if old_h = nh then t1
      else if p = [] then update_node t1 p fuel
      else update_node t1 p.dropLast fuel
    | _ => t

/-- The error kinds of `avltree::exception`. -/
inductive Err where
  | nullPointer : Err
  | nodeKeysMatch : Err
  | keyExists : Err
  | emptyTree : Err
  | nodeNotFound : Err
  | keyNotFound : Err
deriving DecidableEq, Repr

instance : DecidableEq (Except Err Unit) := fun a b =>
  match a, b with
  | Except.ok (), Except.ok () => isTrue rfl
  | Except.error e1, Except.error e2 =>
    if h : e1 = e2 then isTrue (by rw [h]) else isFalse (fun hc => h (Except.error.inj hc))
  | Except.ok _, Except.error _ => isFalse (fun hc => Except.noConfusion hc)
  | Except.error _, Except.ok _ => isFalse (fun hc => Except.noConfusion hc)

/-- The tree object: `_root` and `_size`. -/
structure Tree where
  root : NTree
  size : Nat
deriving DecidableEq, Repr

/-- `AVLTreeBase::search(key)`: the traversed `(node, branch)` pairs,
descending left on -1 and right on 1 until an exact match (branch 0,
which is pushed and ends the walk) or a null child (the loop ends with
the last visited node as final entry). -/
def search : NTree → Nat → List (NTree × Int)
  | nil, _ => []
  | node v h l r, key =>
    let branch := cmpKey key v
    if branch = 0 then [(node v h l r, 0)]
    else if branch < 0 then (node v h l r, branch) :: search l key
    else (node v h l r, branch) :: search r key

/-- Prefix the returned path with the branch direction taken first. -/
def consPath (d : Dir) : Option (Path × NTree × Int) → Option (Path × NTree × Int)
  | some (p, n, b) => some (d :: p, n, b)
  | none => none

/-- The last entry of `search` (`*traversal.rbegin()`), decorated with the
path from the searched tree down to that final node.  `none` only on an
empty tree.  The comparison `cmpKey key v` is the loop's `branch`. -/
def searchTermP : NTree → Nat → Option (Path × NTree × Int)
  | nil, _ => none
  | node v h l r, key =>
    if cmpKey key v = 0 then some ([], node v h l r, 0)
    else if cmpKey key v < 0 then
      match l with
      | nil => some ([], node v h l r, cmpKey key v)
      | node lv lh ll lr => consPath Dir.left (searchTermP (node lv lh ll lr) key)
    else
      match r with
      | nil => some ([], node v h l r, cmpKey key v)
      | node rv rh rl rr => consPath Dir.right (searchTermP (node rv rh rl rr) key)

/-- `AVLTreeBase::add_node(value)`: empty tree makes the new node the root
(note: without any `update_node`, so the fresh root keeps `_height = 0`);
otherwise search, throw `KeyExists` on an exact match, link the fresh
leaf (`_height = 0`) under the final search node on the final branch, run
`update_node` from the new leaf, and increment `_size`. -/
def add_node (t : Tree) (value : Nat) : Tree × Except Err Unit :=
  match t.root with
  | nil => ({ root := node value 0 nil nil, size := t.size + 1 }, Except.ok ())
  | node v h l r =>
    match searchTermP (node v h l r) value with
    | none => (t, Except.error Err.nullPointer)
    | some (p, _, branch) =>
      if branch = 0 then (t, Except.error Err.keyExists)
      else
        let d := if branch < 0 then Dir.left else Dir.right
        let linked := replaceAt (node v h l r) (p ++ [d]) (node value 0 nil nil)
        ({ root := update_node linked (p ++ [d]) (p.length + 3), size := t.size + 1 },
         Except.ok ())

/-- `AVLTreeBase::insert(value)` forwards to `add_node`. -/
def insert (t : Tree) (value : Nat) : Tree × Except Err Unit :=
  add_node t value

/-- The `while (leftmost->_left != nullptr) leftmost = leftmost->_left;`
descent as a path. -/
def leftSpine : NTree → Path
  | node _ _ (node lv lh ll lr) _ => Dir.left :: leftSpine (node lv lh ll lr)
  | _ => []

/-- The node reached by `leftSpine`. -/
def leftmostOf : NTree → NTree
  | node v h nil r => node v h nil r
  | node _ _ (node lv lh ll lr) _ => leftmostOf (node lv lh ll lr)
  | nil => nil

/-- The `while (node->_right != nullptr)` descent as a path. -/
def rightSpine : NTree → Path
  | node _ _ _ (node rv rh rl rr) => Dir.right :: rightSpine (node rv rh rl rr)
  | _ => []

/-- The `_value` field of a node (0 on a null pointer, never used there). -/
def nodeValue : NTree → Nat
  | nil => 0
  | node v _ _ _ => v

/-- `AVLTreeBase::remove_node(value)`: throw `EmptyTree` on an empty tree,
search for the key, throw `NodeNotFound` unless the final branch is 0,
and then remove the found node at path `p`.
Leaf: unlink it; retrace from its parent unless it was the root.
One child: splice the child into the node's position; retrace from the
parent, or from the new root when the node was the root.
Two children: `leftmost` is the in-order successor (the leftmost node of
the right child); its right child `lmr` takes its slot; `copy_node_data`
then moves the target's height and both children onto `leftmost`, which
takes the target's position.  Retrace from `lmr` at its new position when
it exists, from the successor's former parent when the successor was not
the target's direct right child, and from the successor itself otherwise.
Finally `_size` is decremented. -/
def remove_node (t : Tree) (value : Nat) : Tree × Except Err Unit :=
  match t.root with
  | nil => (t, Except.error Err.emptyTree)
  | node v0 h0 l0 r0 =>
    let rt := node v0 h0 l0 r0
    match searchTermP rt value with
    | none => (t, Except.error Err.nullPointer)
    | some (p, n, b) =>
      if b = 0 then
        match n with
        | nil => (t, Except.error Err.nullPointer)
        | node _ h l r =>
          let plan : NTree × Option Path :=
            match l, r with
            | nil, nil =>
              (replaceAt rt p nil, if p = [] then none else some p.dropLast)
            | nil, node rv rh rl rr =>
              (replaceAt rt p (node rv rh rl rr),
               if p = [] then some [] else some p.dropLast)
            | node lv lh ll lr, nil =>
              (replaceAt rt p (node lv lh ll lr),
               if p = [] then some [] else some p.dropLast)
            | node lv lh ll lr, node rv rh rl rr =>
              let lc := node lv lh ll lr
              let rc := node rv rh rl rr
              let lp := leftSpine rc
              match leftmostOf rc with
              | node lmv _ _ lmr =>
                if lp = [] then
                  (replaceAt rt p (node lmv h lc lmr),
                   some (if lmr = nil then p else p ++ [Dir.right]))
                else
                  (replaceAt rt p (node lmv h lc (replaceAt rc lp lmr)),
                   some (if lmr = nil then p ++ Dir.right :: lp.dropLast
                         else p ++ Dir.right :: lp))
              | nil => (rt, none)
          match plan with
          | (newRoot, none) =>
            ({ root := newRoot, size := t.size - 1 }, Except.ok ())
          | (newRoot, some up) =>
            ({ root := update_node newRoot up (up.length + 2), size := t.size - 1 },
             Except.ok ())
      else (t, Except.error Err.nodeNotFound)

/-- `AVLTreeBase::remove(key)`: silently return on an empty tree
(`if (this->_root == nullptr) { return; }`), throw `KeyNotFound` unless
the search ends on an exact match, then call `remove_node` with the found
node's value. -/
def remove (t : Tree) (key : Nat) : Tree × Except Err Unit :=
  match t.root with
  | nil => (t, Except.ok ())
  | node v h l r =>
    match searchTermP (node v h l r) key with
    | none => (t, Except.error Err.nullPointer)
    | some (_, n, branch) =>
      if branch = 0 then remove_node t (nodeValue n)
      else (t, Except.error Err.keyNotFound)

/-- `AVLTreeBase::find(key)`: `nullopt` on an empty tree or when the final
search branch is nonzero, otherwise the final node. -/
def find (t : Tree) (key : Nat) : Option NTree :=
  match t.root with
  | nil => none
  | node v h l r =>
    match searchTermP (node v h l r) key with
    | none => none
    | some (_, n, branch) => if branch = 0 then some n else none

/-- `AVLTreeBase::destroy()`: unlink every node reachable from `_root` and
reset `_root`; `_size` is not modified by the source. -/
def destroy (t : Tree) : Tree :=
  { root := nil, size := t.size }

/-- Number of nodes reachable from a (sub)tree root. -/
def sz : NTree → Nat
  | nil => 0
  | node _ _ l r => sz l + sz r + 1

/-- `AVLTreeBase::copy_node`: a fresh node with the same `_value` and
`_height`.  (The C++ copy constructor also copies the child pointers of
the source node, but `AVLTreeBase::copy` overwrites every such pointer
that is not null before the clone is ever linked below the new root, so
the clone behaves as if its children start out null.) -/
def copy_node : NTree → NTree
  | nil => nil
  | node v h _ _ => node v h nil nil

/-- The breadth-first loop of `AVLTreeBase::copy`: `visiting` pairs each
still-to-be-processed source node with the path of its already-allocated
clone (the C++ keeps these in the two lock-stepped queues `visiting` and
`added`); for each popped pair, clone and link the non-null children and
push them at the back.  The fuel argument only bounds the loop so that
the recursion is structural; `copy` passes enough for a full pass (each
iteration consumes at least one unit of `2 * remaining nodes + queue
length`). -/
def copyLoop : Nat → List (NTree × Path) → NTree → NTree
  | _, [], clone => clone
  | 0, _ :: _, clone => clone
  | fuel + 1, (s, p) :: rest, clone =>
    match s with
    | nil => copyLoop fuel rest clone
    | node _ _ nil nil => copyLoop fuel rest clone
    | node _ _ nil (node rv rh rl rr) =>
      copyLoop fuel (rest ++ [(node rv rh rl rr, p ++ [Dir.right])])
        (replaceAt clone (p ++ [Dir.right]) (copy_node (node rv rh rl rr)))
    | node _ _ (node lv lh ll lr) nil =>
      copyLoop fuel (rest ++ [(node lv lh ll lr, p ++ [Dir.left])])
        (replaceAt clone (p ++ [Dir.left]) (copy_node (node lv lh ll lr)))
    | node _ _ (node lv lh ll lr) (node rv rh rl rr) =>
      copyLoop fuel
        (rest ++ [(node lv lh ll lr, p ++ [Dir.left]), (node rv rh rl rr, p ++ [Dir.right])])
        (replaceAt (replaceAt clone (p ++ [Dir.left]) (copy_node (node lv lh ll lr)))
          (p ++ [Dir.right]) (copy_node (node rv rh rl rr)))

/-- `AVLTreeBase::copy(other)`: destroy the current tree when it has a
root, clone the other tree's root and breadth-first clone the rest.
`_size` is never written (the copy constructor leaves it uninitialized;
on an existing tree it keeps its previous value). -/
def copy (t other : Tree) : Tree :=
  let t1 := if t.root = nil then t else destroy t
  match other.root with
  | nil => t1
  | node v h l r =>
    { root := copyLoop (2 * sz (node v h l r) + 1) [(node v h l r, [])]
        (copy_node (node v h l r)),
      size := t1.size }

/-- In-order key sequence of a subtree (left, node, right). -/
def keysIn : NTree → List Nat
  | nil => []
  | node v _ l r => keysIn l ++ v :: keysIn r

/-- The binary-search-tree ordering property, node by node: every key in
the left subtree is less than the node key, which is less than every key
in the right subtree. -/
def bst : NTree → Bool
  | nil => true
  | node v _ l r =>
    (keysIn l).all (fun x => decide (x < v)) &&
    (keysIn r).all (fun x => decide (v < x)) &&
    bst l && bst r

/-- The stored-height invariant: every node's `_height` equals
`1 + max(height(left), height(right))` with absent children counting 0. -/
def heightInvB : NTree → Bool
  | nil => true
  | node _ h l r =>
    decide (h = max (childHeight l) (childHeight r) + 1) && heightInvB l && heightInvB r

/-- The AVL balance invariant on stored heights:
`|height(left) - height(right)| <= 1` at every node. -/
def balancedB : NTree → Bool
  | nil => true
  | node _ _ l r =>
    decide (childHeight l - childHeight r ≤ 1) &&
    decide (childHeight r - childHeight l ≤ 1) &&
    balancedB l && balancedB r

/-- Trees reachable from a default-constructed `AVLTreeBase` by any
sequence of `insert` and `remove` calls (failing calls leave the state
unchanged, so they are harmlessly included). -/
inductive Reachable : Tree → Prop where
  | base : Reachable { root := nil, size := 0 }
  | ins : ∀ t v, Reachable t → Reachable (add_node t v).1
  | rem : ∀ t k, Reachable t → Reachable (remove t k).1

/-- Drop the trailing `Dir.right` steps of a path: the
`while (parent != nullptr && node == parent->_right)` climb of the
in-order iterator. -/
def stripRights : Path → Path
  | [] => []
  | d :: p =>
    match stripRights p with
    | [] => if d = Dir.right then [] else [d]
    | q => d :: q

/-- `inorder_iterator_base` constructor: descend to the leftmost node. -/
def inorderBegin (t : NTree) : Option Path :=
  match t with
  | nil => none
  | s => some (leftSpine s)

/-- `inorder_iterator_base::operator++`: go to the leftmost node of the
right child when it exists, otherwise climb while the current node is a
right child and then step to that parent (or off the end at the root). -/
def inorderNext (t : NTree) (p : Path) : Option Path :=
  match subtreeAt t p with
  | some (node _ _ _ (node rv rh rl rr)) =>
    some (p ++ Dir.right :: leftSpine (node rv rh rl rr))
  | some (node _ _ _ nil) =>
    match stripRights p with
    | [] => none
    | q => some q.dropLast
  | _ => none

/-- `preorder_iterator_base` starts at the given node (the root). -/
def preorderBegin (t : NTree) : Option Path :=
  match t with
  | nil => none
  | _ => some []

/-- The ascending loop of `preorder_iterator_base::operator++`, on the
reversed path: climb while the current node is the parent's right child
or the parent has no right child; then move to the parent's right child,
or off the end when the climb exhausts the ancestors. -/
def preClimbRev (t : NTree) : Path → Option Path
  | [] => none
  | d :: restRev =>
    match subtreeAt t restRev.reverse with
    | some (node _ _ _ nil) => preClimbRev t restRev
    | some (node _ _ _ _) =>
      if d = Dir.right then preClimbRev t restRev
      else some (restRev.reverse ++ [Dir.right])
    | _ => none

/-- `preorder_iterator_base::operator++`: left child if present, else
right child if present, else the climb. -/
def preorderNext (t : NTree) (p : Path) : Option Path :=
  match subtreeAt t p with
  | some (node _ _ (node _ _ _ _) _) => some (p ++ [Dir.left])
  | some (node _ _ nil (node _ _ _ _)) => some (p ++ [Dir.right])
  | some (node _ _ nil nil) => preClimbRev t p.reverse
  | _ => none

/-- The `postorder_iterator_base` descent: all the way left, then all the
way right from there. -/
def lrDescend (s : NTree) : Path :=
  leftSpine s ++ rightSpine (leftmostOf s)

/-- `postorder_iterator_base` constructor. -/
def postorderBegin (t : NTree) : Option Path :=
  match t with
  | nil => none
  | s => some (lrDescend s)

/-- `postorder_iterator_base::operator++`: when the current node is a left
child whose parent has a right child, restart the descent inside that
right sibling; otherwise move to the parent. -/
def postorderNext (t : NTree) (p : Path) : Option Path :=
  match p.reverse with
  | [] => none
  | d :: restRev =>
    let pp := restRev.reverse
    if d = Dir.left then
      match subtreeAt t pp with
      | some (node _ _ _ nil) => some pp
      | some (node _ _ _ (node rv rh rl rr)) =>
        some (pp ++ Dir.right :: lrDescend (node rv rh rl rr))
      | _ => none
    else some pp

/-- Run a value iterator: collect `node->value()` at the current position
and advance with the given step function until off the end (the fuel is
`sz t + 1`, enough for one full pass). -/
def runIter (t : NTree) (nextF : NTree → Path → Option Path) :
    Option Path → Nat → List Nat
  | _, 0 => []
  | none, _ => []
  | some p, fuel + 1 =>
    match subtreeAt t p with
    | some (node v _ _ _) => v :: runIter t nextF (nextF t p) fuel
    | _ => []

/-- The value sequence of `begin_values_inorder()` to `end_values_inorder()`. -/
def runInorder (t : NTree) : List Nat :=
  runIter t inorderNext (inorderBegin t) (sz t + 1)

/-- The value sequence of `begin_values_preorder()` to `end_values_preorder()`. -/
def runPreorder (t : NTree) : List Nat :=
  runIter t preorderNext (preorderBegin t) (sz t + 1)

/-- The value sequence of `begin_values_postorder()` to `end_values_postorder()`. -/
def runPostorder (t : NTree) : List Nat :=
  runIter t postorderNext (postorderBegin t) (sz t + 1)

/-- The `AVLTreeBase(std::vector<Value>&)` constructor: start empty and
`add_node` each value in order (exceptions from a duplicate would
propagate; on the inputs used here none occurs). -/
def buildTree (values : List Nat) : Tree :=
  values.foldl (fun t v => (add_node t v).1) { root := nil, size := 0 }

/-- The in-order keys still to be visited from the node at a path
(inclusive): used to relate the in-order iterator to `keysIn`. -/
def tailKeys : NTree → Path → List Nat
  | node v _ _ r, [] => v :: keysIn r
  | node v _ l r, Dir.left :: p => tailKeys l p ++ v :: keysIn r
  | node _ _ _ r, Dir.right :: p => tailKeys r p
  | nil, _ => []

/-- Two paths address independent positions: neither is an initial
segment of the other (the two subtrees are disjoint). -/
def Incomp (p q : Path) : Prop :=
  ¬ p <+: q ∧ ¬ q <+: p

/-- Graft every queued source subtree at its clone position (the net
effect of the remaining breadth-first copy work). -/
def graftAll (queue : List (NTree × Path)) (c : NTree) : NTree :=
  queue.foldl (fun acc e => replaceAt acc e.2 e.1) c

/-! ### Basic facts about the three-way comparison -/

theorem cmpKey_eq_zero {k v : Nat} : cmpKey k v = 0 ↔ k = v := by
  unfold cmpKey; split <;> rename_i h1
  · omega
  · split <;> omega

theorem cmpKey_lt_zero {k v : Nat} : cmpKey k v < 0 ↔ k < v := by
  unfold cmpKey; split <;> rename_i h1
  · omega
  · split <;> omega

theorem cmpKey_cases (k v : Nat) : cmpKey k v = 0 ∨ cmpKey k v = -1 ∨ cmpKey k v = 1 := by
  unfold cmpKey; split
  · right; left; rfl
  · split
    · right; right; rfl
    · left; rfl

theorem cmpKey_pos_iff {k v : Nat} : ¬ cmpKey k v = 0 → ¬ cmpKey k v < 0 → v < k := by
  unfold cmpKey; split <;> rename_i h1
  · omega
  · split <;> omega

/-! ### Paths, subtrees and replacement -/

theorem subtreeAt_append (t : NTree) (p q : Path) :
    subtreeAt t (p ++ q) = (subtreeAt t p).bind (fun s => subtreeAt s q) := by
  induction p generalizing t with
  | nil => simp [subtreeAt]
  | cons d p ih =>
    cases t with
    | nil => simp [subtreeAt]
    | node v h l r => cases d <;> simp [subtreeAt, ih]

theorem replaceAt_append {t s0 : NTree} {p : Path} (q : Path) (x : NTree)
    (h : subtreeAt t p = some s0) :
    replaceAt t (p ++ q) x = replaceAt t p (replaceAt s0 q x) := by
  induction p generalizing t with
  | nil => simp [subtreeAt] at h; simp [replaceAt, h]
  | cons d p ih =>
    cases t with
    | nil => simp [subtreeAt] at h
    | node v hh l r =>
      cases d with
      | left => simp [subtreeAt] at h; simp [replaceAt, ih h]
      | right => simp [subtreeAt] at h; simp [replaceAt, ih h]

theorem subtreeAt_replaceAt_self {t : NTree} {p : Path} (s : NTree)
    (h : (subtreeAt t p).isSome) :
    subtreeAt (replaceAt t p s) p = some s := by
  induction p generalizing t with
  | nil => simp [subtreeAt, replaceAt]
  | cons d p ih =>
    cases t with
    | nil => simp [subtreeAt] at h
    | node v hh l r =>
      cases d with
      | left => simp [subtreeAt, replaceAt] at h ⊢; exact ih h
      | right => simp [subtreeAt, replaceAt] at h ⊢; exact ih h

/-- Splitting the in-order key sequence at the subtree sitting at a path:
replacing that subtree replaces exactly the middle section. -/
theorem keys_decomp {t s : NTree} {p : Path} (h : subtreeAt t p = some s) :
    ∃ pre post, (∀ q, keysIn (replaceAt t p q) = pre ++ (keysIn q ++ post)) ∧
      keysIn t = pre ++ (keysIn s ++ post) := by
  induction p generalizing t with
  | nil =>
    simp [subtreeAt] at h
    exact ⟨[], [], fun q => by simp [replaceAt], by simp [h]⟩
  | cons d p ih =>
    cases t with
    | nil => simp [subtreeAt] at h
    | node v hh l r =>
      cases d with
      | left =>
        simp [subtreeAt] at h
        obtain ⟨pre, post, h1, h2⟩ := ih h
        refine ⟨pre, post ++ v :: keysIn r, fun q => ?_, ?_⟩
        · simp [replaceAt, keysIn, h1]
        · simp [keysIn, h2]
      | right =>
        simp [subtreeAt] at h
        obtain ⟨pre, post, h1, h2⟩ := ih h
        refine ⟨keysIn l ++ v :: pre, post, fun q => ?_, ?_⟩
        · simp [replaceAt, keysIn, h1]
        · simp [keysIn, h2]

/-- A key of the subtree at a path is a key of the whole tree. -/
theorem mem_keys_of_subtree {t s : NTree} {p : Path} (h : subtreeAt t p = some s)
    {k : Nat} (hk : k ∈ keysIn s) : k ∈ keysIn t := by
  obtain ⟨pre, post, _, h2⟩ := keys_decomp h
  rw [h2]; simp [hk]

/-! ### Height updates, rotations and the retrace loop preserve the keys -/

theorem keysIn_setHeightAt (t : NTree) (p : Path) (h : Int) :
    keysIn (setHeightAt t p h) = keysIn t := by
  unfold setHeightAt
  split
  · rename_i v h0 l r hs
    obtain ⟨pre, post, h1, h2⟩ := keys_decomp hs
    rw [h1, h2]; rfl
  · rfl

theorem keysIn_rotate_left_sub (s : NTree) : keysIn (rotate_left_sub s) = keysIn s := by
  unfold rotate_left_sub
  split
  · simp [keysIn]
  · rfl

theorem keysIn_rotate_right_sub (s : NTree) : keysIn (rotate_right_sub s) = keysIn s := by
  unfold rotate_right_sub
  split
  · simp [keysIn]
  · rfl

theorem keysIn_rotate_left (t : NTree) (p : Path) :
    keysIn (rotate_left t p) = keysIn t := by
  unfold rotate_left
  split
  · rename_i s hs
    obtain ⟨pre, post, h1, h2⟩ := keys_decomp hs
    rw [h1, h2, keysIn_rotate_left_sub]
  · rfl

theorem keysIn_rotate_right (t : NTree) (p : Path) :
    keysIn (rotate_right t p) = keysIn t := by
  unfold rotate_right
  split
  · rename_i s hs
    obtain ⟨pre, post, h1, h2⟩ := keys_decomp hs
    rw [h1, h2, keysIn_rotate_right_sub]
  · rfl

theorem keysIn_rebalance_node (t : NTree) (p : Path) :
    keysIn (rebalance_node t p) = keysIn t := by
  unfold rebalance_node
  split
  · dsimp only
    split_ifs <;> simp [keysIn_rotate_left, keysIn_rotate_right]
  · rfl

theorem keysIn_update_node (t : NTree) (p : Path) (fuel : Nat) :
    keysIn (update_node t p fuel) = keysIn t := by
  induction fuel generalizing t p with
  | zero => rfl
  | succ fuel ih =>
    unfold update_node
    split
    · dsimp only
      split_ifs <;> simp [ih, keysIn_rebalance_node, keysIn_setHeightAt]
    · rfl

/-! ### The node-wise BST property versus sortedness of the key sequence -/

theorem bst_iff_sorted (t : NTree) :
    bst t = true ↔ List.Sorted (· < ·) (keysIn t) := by
  induction t with
  | nil => simp [bst, keysIn, List.Sorted]
  | node v h l r ihl ihr =>
    show ((keysIn l).all (fun x => decide (x < v)) &&
        (keysIn r).all (fun x => decide (v < x)) && bst l && bst r) = true ↔ _
    simp only [Bool.and_eq_true, List.all_eq_true, decide_eq_true_eq, keysIn,
      List.Sorted, List.pairwise_append, List.pairwise_cons, List.mem_cons, ihl, ihr]
    constructor
    · rintro ⟨⟨⟨hL, hR⟩, hl⟩, hr⟩
      refine ⟨hl, ⟨hR, hr⟩, ?_⟩
      rintro a ha b (rfl | hb)
      · exact hL a ha
      · exact lt_trans (hL a ha) (hR b hb)
    · rintro ⟨hl, ⟨hR, hr⟩, hcross⟩
      exact ⟨⟨⟨fun a ha => hcross a ha v (Or.inl rfl), hR⟩, hl⟩, hr⟩

theorem sorted_keys_nodup {t : NTree} (h : bst t = true) : (keysIn t).Nodup :=
  ((bst_iff_sorted t).1 h).nodup

/-! ### Soundness and completeness of `search` -/

theorem searchTermP_sound {t : NTree} {k : Nat} {p : Path} {n : NTree} {b : Int}
    (h : searchTermP t k = some (p, n, b)) :
    subtreeAt t p = some n ∧ (b = 0 → ∃ hh l r, n = node k hh l r) := by
  induction t generalizing p n b with
  | nil => simp [searchTermP] at h
  | node v hh l r ihl ihr =>
    rw [searchTermP.eq_def] at h
    dsimp only at h
    by_cases h0 : cmpKey k v = 0
    · rw [if_pos h0] at h
      simp only [Option.some.injEq, Prod.mk.injEq] at h
      obtain ⟨rfl, rfl, rfl⟩ := h
      refine ⟨rfl, fun _ => ⟨hh, l, r, ?_⟩⟩
      rw [cmpKey_eq_zero.1 h0]
    · rw [if_neg h0] at h
      by_cases hlt : cmpKey k v < 0
      · rw [if_pos hlt] at h
        cases l with
        | nil =>
          simp only [Option.some.injEq, Prod.mk.injEq] at h
          obtain ⟨rfl, rfl, rfl⟩ := h
          exact ⟨rfl, fun hb => absurd hb h0⟩
        | node lv lh ll lr =>
          dsimp only at h
          cases hrec : searchTermP (node lv lh ll lr) k with
          | none => rw [hrec] at h; simp [consPath] at h
          | some res =>
            obtain ⟨p1, n1, b1⟩ := res
            rw [hrec] at h
            simp only [consPath, Option.some.injEq, Prod.mk.injEq] at h
            obtain ⟨rfl, rfl, rfl⟩ := h
            obtain ⟨hsub, hzero⟩ := ihl hrec
            exact ⟨by simpa [subtreeAt] using hsub, hzero⟩
      · rw [if_neg hlt] at h
        cases r with
        | nil =>
          simp only [Option.some.injEq, Prod.mk.injEq] at h
          obtain ⟨rfl, rfl, rfl⟩ := h
          exact ⟨rfl, fun hb => absurd hb h0⟩
        | node rv rh rl rr =>
          dsimp only at h
          cases hrec : searchTermP (node rv rh rl rr) k with
          | none => rw [hrec] at h; simp [consPath] at h
          | some res =>
            obtain ⟨p1, n1, b1⟩ := res
            rw [hrec] at h
            simp only [consPath, Option.some.injEq, Prod.mk.injEq] at h
            obtain ⟨rfl, rfl, rfl⟩ := h
            obtain ⟨hsub, hzero⟩ := ihr hrec
            exact ⟨by simpa [subtreeAt] using hsub, hzero⟩

theorem searchTermP_isSome {t : NTree} (ht : t ≠ nil) (k : Nat) :
    ∃ p n b, searchTermP t k = some (p, n, b) := by
  induction t with
  | nil => exact absurd rfl ht
  | node v hh l r ihl ihr =>
    rw [searchTermP.eq_def]
    dsimp only
    by_cases h0 : cmpKey k v = 0
    · rw [if_pos h0]; exact ⟨[], _, 0, rfl⟩
    · rw [if_neg h0]
      by_cases hlt : cmpKey k v < 0
      · rw [if_pos hlt]
        cases l with
        | nil => exact ⟨[], _, _, rfl⟩
        | node lv lh ll lr =>
          obtain ⟨p, n, b, hp⟩ := ihl (by simp)
          dsimp only
          rw [hp]; exact ⟨Dir.left :: p, n, b, rfl⟩
      · rw [if_neg hlt]
        cases r with
        | nil => exact ⟨[], _, _, rfl⟩
        | node rv rh rl rr =>
          obtain ⟨p, n, b, hp⟩ := ihr (by simp)
          dsimp only
          rw [hp]; exact ⟨Dir.right :: p, n, b, rfl⟩

/-- On a binary search tree, searching for a present key ends on branch 0. -/
theorem searchTermP_complete {t : NTree} {k : Nat} (hb : bst t = true)
    (hk : k ∈ keysIn t) : ∃ p n, searchTermP t k = some (p, n, 0) := by
  induction t with
  | nil => simp [keysIn] at hk
  | node v hh l r ihl ihr =>
    have hparts : (keysIn l).all (fun x => decide (x < v)) = true ∧
        (keysIn r).all (fun x => decide (v < x)) = true ∧ bst l = true ∧ bst r = true := by
      have : ((keysIn l).all (fun x => decide (x < v)) &&
          (keysIn r).all (fun x => decide (v < x)) && bst l && bst r) = true := hb
      simp only [Bool.and_eq_true] at this
      exact ⟨this.1.1.1, this.1.1.2, this.1.2, this.2⟩
    rw [searchTermP.eq_def]
    dsimp only
    have hk2 : k ∈ keysIn l ∨ k = v ∨ k ∈ keysIn r := by simpa [keysIn] using hk
    rcases hk2 with hmem | rfl | hmem
    · have hlt : k < v := by
        have := List.all_eq_true.1 hparts.1 k hmem
        exact of_decide_eq_true this
      have h0 : ¬ cmpKey k v = 0 := fun hc => by
        rw [cmpKey_eq_zero.1 hc] at hlt; exact lt_irrefl v hlt
      rw [if_neg h0, if_pos (cmpKey_lt_zero.2 hlt)]
      cases l with
      | nil => simp [keysIn] at hmem
      | node lv lh ll lr =>
        obtain ⟨p, n, hp⟩ := ihl hparts.2.2.1 hmem
        dsimp only
        rw [hp]; exact ⟨Dir.left :: p, n, rfl⟩
    · rw [if_pos (cmpKey_eq_zero.2 rfl)]; exact ⟨[], _, rfl⟩
    · have hgt : v < k := by
        have := List.all_eq_true.1 hparts.2.1 k hmem
        exact of_decide_eq_true this
      have h0 : ¬ cmpKey k v = 0 := fun hc => by
        rw [cmpKey_eq_zero.1 hc] at hgt; exact lt_irrefl v hgt
      have hnlt : ¬ cmpKey k v < 0 := fun hc => by
        have := cmpKey_lt_zero.1 hc; omega
      rw [if_neg h0, if_neg hnlt]
      cases r with
      | nil => simp [keysIn] at hmem
      | node rv rh rl rr =>
        obtain ⟨p, n, hp⟩ := ihr hparts.2.2.2 hmem
        dsimp only
        rw [hp]; exact ⟨Dir.right :: p, n, rfl⟩

/-- Searching for an absent key never ends on branch 0 (true on any tree,
search only reports 0 at a node whose key compares equal). -/
theorem searchTermP_miss {t : NTree} {k : Nat} (hk : k ∉ keysIn t)
    {p : Path} {n : NTree} {b : Int} (h : searchTermP t k = some (p, n, b)) : b ≠ 0 := by
  intro hb0
  obtain ⟨hsub, hzero⟩ := searchTermP_sound h
  obtain ⟨hh, l, r, rfl⟩ := hzero hb0
  exact hk (mem_keys_of_subtree hsub (by simp [keysIn]))

theorem bst_node_iff {v : Nat} {h : Int} {l r : NTree} :
    bst (node v h l r) = true ↔
      (∀ x ∈ keysIn l, x < v) ∧ (∀ x ∈ keysIn r, v < x) ∧ bst l = true ∧ bst r = true := by
  show (_ && _ && _ && _) = true ↔ _
  simp only [Bool.and_eq_true, List.all_eq_true, decide_eq_true_eq]
  tauto

/-! ### Linking a fresh leaf at the end of a search path -/

/-- Linking the new leaf of `add_node` where the failed search ended adds
exactly the new key, and preserves the BST property. -/
theorem linked_insert {t : NTree} {v : Nat} {p : Path} {n : NTree} {b : Int}
    (hs : searchTermP t v = some (p, n, b)) (hb : b ≠ 0) :
    (∀ x, x ∈ keysIn (replaceAt t (p ++ [if b < 0 then Dir.left else Dir.right])
        (node v 0 nil nil)) ↔ (x ∈ keysIn t ∨ x = v)) ∧
    (bst t = true → bst (replaceAt t (p ++ [if b < 0 then Dir.left else Dir.right])
        (node v 0 nil nil)) = true) := by
  induction t generalizing p n b with
  | nil => simp [searchTermP] at hs
  | node v0 h0 l r ihl ihr =>
    rw [searchTermP.eq_def] at hs
    dsimp only at hs
    by_cases h0e : cmpKey v v0 = 0
    · rw [if_pos h0e] at hs
      simp only [Option.some.injEq, Prod.mk.injEq] at hs
      obtain ⟨rfl, rfl, rfl⟩ := hs
      exact absurd rfl hb
    · rw [if_neg h0e] at hs
      by_cases hlt : cmpKey v v0 < 0
      · have hvlt : v < v0 := cmpKey_lt_zero.1 hlt
        rw [if_pos hlt] at hs
        cases l with
        | nil =>
          simp only [Option.some.injEq, Prod.mk.injEq] at hs
          obtain ⟨rfl, rfl, rfl⟩ := hs
          rw [if_pos hlt]
          constructor
          · intro x; simp [replaceAt, keysIn]; tauto
          · intro hbst
            rw [bst_node_iff] at hbst
            show bst (node v0 h0 (node v 0 nil nil) r) = true
            rw [bst_node_iff]
            refine ⟨?_, hbst.2.1, by simp [bst, keysIn], hbst.2.2.2⟩
            intro x hx
            simp only [keysIn, List.nil_append, List.mem_singleton] at hx
            subst hx; exact hvlt
        | node lv lh ll lr =>
          dsimp only at hs
          cases hrec : searchTermP (node lv lh ll lr) v with
          | none => rw [hrec] at hs; simp [consPath] at hs
          | some res =>
            obtain ⟨p1, n1, b1⟩ := res
            rw [hrec] at hs
            simp only [consPath, Option.some.injEq, Prod.mk.injEq] at hs
            obtain ⟨rfl, rfl, rfl⟩ := hs
            obtain ⟨ihk, ihb⟩ := ihl hrec hb
            have hstep : replaceAt (node v0 h0 (node lv lh ll lr) r)
                ((Dir.left :: p1) ++ [if b1 < 0 then Dir.left else Dir.right]) (node v 0 nil nil)
                = node v0 h0 (replaceAt (node lv lh ll lr)
                    (p1 ++ [if b1 < 0 then Dir.left else Dir.right]) (node v 0 nil nil)) r := rfl
            rw [hstep]
            constructor
            · intro x
              simp only [keysIn, List.mem_append, List.mem_cons, ihk x]
              tauto
            · intro hbst
              rw [bst_node_iff] at hbst ⊢
              refine ⟨?_, hbst.2.1, ihb hbst.2.2.1, hbst.2.2.2⟩
              intro x hx
              rcases (ihk x).1 hx with hx2 | rfl
              · exact hbst.1 x hx2
              · exact hvlt
      · have hvgt : v0 < v := cmpKey_pos_iff h0e hlt
        rw [if_neg hlt] at hs
        cases r with
        | nil =>
          simp only [Option.some.injEq, Prod.mk.injEq] at hs
          obtain ⟨rfl, rfl, rfl⟩ := hs
          rw [if_neg hlt]
          constructor
          · intro x; simp [replaceAt, keysIn]; tauto
          · intro hbst
            rw [bst_node_iff] at hbst
            show bst (node v0 h0 l (node v 0 nil nil)) = true
            rw [bst_node_iff]
            refine ⟨hbst.1, ?_, hbst.2.2.1, by simp [bst, keysIn]⟩
            intro x hx
            simp only [keysIn, List.nil_append, List.mem_singleton] at hx
            subst hx; exact hvgt
        | node rv rh rl rr =>
          dsimp only at hs
          cases hrec : searchTermP (node rv rh rl rr) v with
          | none => rw [hrec] at hs; simp [consPath] at hs
          | some res =>
            obtain ⟨p1, n1, b1⟩ := res
            rw [hrec] at hs
            simp only [consPath, Option.some.injEq, Prod.mk.injEq] at hs
            obtain ⟨rfl, rfl, rfl⟩ := hs
            obtain ⟨ihk, ihb⟩ := ihr hrec hb
            have hstep : replaceAt (node v0 h0 l (node rv rh rl rr))
                ((Dir.right :: p1) ++ [if b1 < 0 then Dir.left else Dir.right]) (node v 0 nil nil)
                = node v0 h0 l (replaceAt (node rv rh rl rr)
                    (p1 ++ [if b1 < 0 then Dir.left else Dir.right]) (node v 0 nil nil)) := rfl
            rw [hstep]
            constructor
            · intro x
              simp only [keysIn, List.mem_append, List.mem_cons, ihk x]
              tauto
            · intro hbst
              rw [bst_node_iff] at hbst ⊢
              refine ⟨hbst.1, ?_, hbst.2.2.1, ihb hbst.2.2.2⟩
              intro x hx
              rcases (ihk x).1 hx with hx2 | rfl
              · exact hbst.2.1 x hx2
              · exact hvgt

/-! ### Behavior of `add_node` -/

/-- On a BST that already holds the key, `add_node` throws `KeyExists`
without changing the tree at all. -/
theorem add_node_keyExists {t : Tree} {v : Nat} (hb : bst t.root = true)
    (hv : v ∈ keysIn t.root) : add_node t v = (t, Except.error Err.keyExists) := by
  rw [add_node.eq_def]
  cases ht : t.root with
  | nil => rw [ht] at hv; simp [keysIn] at hv
  | node v0 h0 l r =>
    obtain ⟨p, n, hp⟩ := searchTermP_complete hb (by rwa [ht] at hv)
    rw [ht] at hp
    dsimp only
    rw [hp]
    simp

/-- `add_node` on an absent key succeeds, increments `_size` by one, adds
exactly that key, and preserves the BST property. -/
theorem add_node_absent {t : Tree} {v : Nat} (hv : v ∉ keysIn t.root) :
    (add_node t v).2 = Except.ok () ∧ (add_node t v).1.size = t.size + 1 ∧
    (∀ x, x ∈ keysIn (add_node t v).1.root ↔ (x ∈ keysIn t.root ∨ x = v)) ∧
    (bst t.root = true → bst (add_node t v).1.root = true) := by
  rw [add_node.eq_def]
  cases ht : t.root with
  | nil =>
    dsimp only
    refine ⟨rfl, rfl, ?_, ?_⟩
    · intro x; simp [keysIn]
    · intro _; simp [bst, keysIn]
  | node v0 h0 l r =>
    obtain ⟨p, n, b, hp⟩ := searchTermP_isSome (t := node v0 h0 l r) (by simp) v
    have hb : b ≠ 0 := searchTermP_miss (by rwa [ht] at hv) hp
    dsimp only
    rw [hp]
    dsimp only
    rw [if_neg hb]
    obtain ⟨ihk, ihb⟩ := linked_insert hp hb
    refine ⟨rfl, rfl, ?_, ?_⟩
    · intro x
      rw [keysIn_update_node]
      exact ihk x
    · intro hbst
      rw [bst_iff_sorted, keysIn_update_node, ← bst_iff_sorted]
      exact ihb hbst

/-! ### Removal: erasing the found key from the in-order sequence -/

theorem erase_decomp {pre midL midR post : List Nat} {v : Nat}
    (h : (pre ++ ((midL ++ v :: midR) ++ post)).Nodup) :
    (pre ++ ((midL ++ v :: midR) ++ post)).erase v = pre ++ ((midL ++ midR) ++ post) := by
  obtain ⟨h1, h2, hdisj⟩ := List.nodup_append.1 h
  have hvpre : v ∉ pre := fun hv => hdisj hv (by simp)
  obtain ⟨h3, _, _⟩ := List.nodup_append.1 h2
  obtain ⟨_, _, hdisj2⟩ := List.nodup_append.1 h3
  have hvmidL : v ∉ midL := fun hv => hdisj2 hv (by simp)
  rw [List.erase_append_right _ hvpre]
  have hshape : (midL ++ v :: midR) ++ post = midL ++ (v :: (midR ++ post)) := by
    simp [List.append_assoc]
  rw [hshape, List.erase_append_right _ hvmidL, List.erase_cons_head]
  simp [List.append_assoc]

/-- A tree whose keys are an `erase` of a BST's keys is itself a BST. -/
theorem bst_erase {t2 t1 : NTree} {v : Nat} (h1 : bst t1 = true)
    (h2 : keysIn t2 = (keysIn t1).erase v) : bst t2 = true := by
  rw [bst_iff_sorted] at h1 ⊢
  rw [h2]
  exact List.Pairwise.sublist (List.erase_sublist v (keysIn t1)) h1

/-- The in-order successor descent: the leftmost node of a nonempty tree
has no left child, it carries the first in-order key, and removing it
(splicing its right child into its slot) drops exactly that first key. -/
theorem leftmost_head {r : NTree} (hr : r ≠ nil) :
    ∃ lmv lmh lmr, leftmostOf r = node lmv lmh nil lmr ∧
      keysIn r = lmv :: keysIn (replaceAt r (leftSpine r) lmr) := by
  induction r with
  | nil => exact absurd rfl hr
  | node rv rh rl rr ihl ihr =>
    cases rl with
    | nil =>
      refine ⟨rv, rh, rr, rfl, ?_⟩
      simp [leftSpine, replaceAt, keysIn]
    | node lv lh ll lr =>
      obtain ⟨lmv, lmh, lmr, hlm, hkeys⟩ := ihl (by simp)
      refine ⟨lmv, lmh, lmr, ?_, ?_⟩
      · rw [leftmostOf.eq_def]
        exact hlm
      · show keysIn (node lv lh ll lr) ++ rv :: keysIn rr = _
        rw [hkeys]
        show _ = lmv :: keysIn (node rv rh
          (replaceAt (node lv lh ll lr) (leftSpine (node lv lh ll lr)) lmr) rr)
        simp [keysIn]

/-- Replacing the node found at a path by a subtree holding the same keys
minus the node's own key erases exactly that key from the in-order
sequence. -/
theorem erase_by_parts {rt n q : NTree} {p : Path} {v : Nat}
    (hsub : subtreeAt rt p = some n) (hnd : (keysIn rt).Nodup)
    {a b : List Nat} (hn : keysIn n = a ++ v :: b)
    (hq : keysIn q = a ++ b) :
    keysIn (replaceAt rt p q) = (keysIn rt).erase v := by
  obtain ⟨pre, post, hrepl, hkeys⟩ := keys_decomp hsub
  rw [hrepl q, hq, hkeys, hn]
  rw [hkeys, hn] at hnd
  rw [erase_decomp hnd]

/-- `remove_node` on the node found by an exact search: it succeeds,
decrements `_size` by one, and (on a BST) the in-order keys of the result
are the original keys with the search key erased. -/
theorem remove_node_spec {t : Tree} {v : Nat} {p : Path} {n : NTree}
    (hs : searchTermP t.root v = some (p, n, 0)) (hbst : bst t.root = true) :
    ∃ rt2, remove_node t v = ({ root := rt2, size := t.size - 1 }, Except.ok ()) ∧
      keysIn rt2 = (keysIn t.root).erase v := by
  obtain ⟨hsub, hzero⟩ := searchTermP_sound hs
  obtain ⟨hh, l, r, rfl⟩ := hzero rfl
  cases ht : t.root with
  | nil => rw [ht] at hs; simp [searchTermP] at hs
  | node v0 h0 l0 r0 =>
    rw [ht] at hs hsub hbst
    have hnodup : (keysIn (node v0 h0 l0 r0)).Nodup := sorted_keys_nodup hbst
    rw [remove_node.eq_def, ht]
    dsimp only
    rw [hs]
    dsimp only
    rw [if_pos rfl]
    cases l with
    | nil =>
      cases r with
      | nil =>
        dsimp only
        by_cases hp : p = []
        · rw [if_pos hp]
          dsimp only
          refine ⟨_, rfl, ?_⟩
          exact erase_by_parts (a := []) (b := []) hsub hnodup
            (by simp [keysIn]) (by simp [keysIn])
        · rw [if_neg hp]
          dsimp only
          refine ⟨_, rfl, ?_⟩
          rw [keysIn_update_node]
          exact erase_by_parts (a := []) (b := []) hsub hnodup
            (by simp [keysIn]) (by simp [keysIn])
      | node rv rh rl rr =>
        dsimp only
        by_cases hp : p = []
        · rw [if_pos hp]
          dsimp only
          refine ⟨_, rfl, ?_⟩
          rw [keysIn_update_node]
          exact erase_by_parts (a := []) (b := keysIn (node rv rh rl rr)) hsub hnodup
            (by simp [keysIn]) (by simp [keysIn])
        · rw [if_neg hp]
          dsimp only
          refine ⟨_, rfl, ?_⟩
          rw [keysIn_update_node]
          exact erase_by_parts (a := []) (b := keysIn (node rv rh rl rr)) hsub hnodup
            (by simp [keysIn]) (by simp [keysIn])
    | node lv lh ll lr =>
      cases r with
      | nil =>
        dsimp only
        by_cases hp : p = []
        · rw [if_pos hp]
          dsimp only
          refine ⟨_, rfl, ?_⟩
          rw [keysIn_update_node]
          exact erase_by_parts (a := keysIn (node lv lh ll lr)) (b := []) hsub hnodup
            (by simp [keysIn]) (by simp [keysIn])
        · rw [if_neg hp]
          dsimp only
          refine ⟨_, rfl, ?_⟩
          rw [keysIn_update_node]
          exact erase_by_parts (a := keysIn (node lv lh ll lr)) (b := []) hsub hnodup
            (by simp [keysIn]) (by simp [keysIn])
      | node rv rh rcl rcr =>
        cases rcl with
        | nil =>
          dsimp only [leftSpine, leftmostOf]
          rw [if_pos rfl]
          dsimp only
          refine ⟨_, rfl, ?_⟩
          rw [keysIn_update_node]
          exact erase_by_parts (a := keysIn (node lv lh ll lr))
            (b := rv :: keysIn rcr) hsub hnodup
            (by simp [keysIn]) (by simp [keysIn])
        | node xv xh xl xr =>
          obtain ⟨lmv, lmh, lmr, hlm, hkeysrc⟩ :=
            leftmost_head (r := node rv rh (node xv xh xl xr) rcr) (by simp)
          dsimp only
          rw [hlm]
          dsimp only
          rw [if_neg (by simp [leftSpine])]
          dsimp only
          refine ⟨_, rfl, ?_⟩
          rw [keysIn_update_node]
          exact erase_by_parts (a := keysIn (node lv lh ll lr))
            (b := lmv :: keysIn (replaceAt (node rv rh (node xv xh xl xr) rcr)
              (leftSpine (node rv rh (node xv xh xl xr) rcr)) lmr)) hsub hnodup
            (by
              have hsplit : keysIn (node v hh (node lv lh ll lr)
                  (node rv rh (node xv xh xl xr) rcr)) = keysIn (node lv lh ll lr) ++
                    v :: keysIn (node rv rh (node xv xh xl xr) rcr) := rfl
              rw [hsplit, hkeysrc])
            (by simp [keysIn])

/-- `remove(key)` on a BST holding the key: success, `_size` drops by one,
and the in-order keys lose exactly that key. -/
theorem remove_present {t : Tree} {v : Nat} (hbst : bst t.root = true)
    (hv : v ∈ keysIn t.root) :
    ∃ rt2, remove t v = ({ root := rt2, size := t.size - 1 }, Except.ok ()) ∧
      keysIn rt2 = (keysIn t.root).erase v ∧ bst rt2 = true := by
  obtain ⟨p, n, hs⟩ := searchTermP_complete hbst hv
  obtain ⟨hsub, hzero⟩ := searchTermP_sound hs
  obtain ⟨hh, l, r, rfl⟩ := hzero rfl
  obtain ⟨rt2, hrn, hkeys⟩ := remove_node_spec hs hbst
  cases ht : t.root with
  | nil => rw [ht] at hv; simp [keysIn] at hv
  | node v0 h0 l0 r0 =>
    rw [ht] at hs
    rw [remove.eq_def, ht]
    dsimp only
    rw [hs]
    dsimp only
    rw [if_pos rfl]
    rw [show nodeValue (node v hh l r) = v from rfl, hrn]
    rw [ht] at hkeys
    exact ⟨rt2, rfl, hkeys, bst_erase hbst (by rw [← ht] at hkeys; exact hkeys)⟩

/-- `remove(key)` with an absent key leaves the tree state unchanged. -/
theorem remove_absent_state {t : Tree} {k : Nat} (hv : k ∉ keysIn t.root) :
    (remove t k).1 = t := by
  rw [remove.eq_def]
  cases ht : t.root with
  | nil => rfl
  | node v h l r =>
    dsimp only
    cases hsr : searchTermP (node v h l r) k with
    | none => rfl
    | some res =>
      obtain ⟨p, n, b⟩ := res
      have hb : b ≠ 0 := searchTermP_miss (by rwa [ht] at hv) hsr
      dsimp only
      rw [if_neg hb]

/-- `remove(key)` on a nonempty tree with no key comparing equal throws
`KeyNotFound` and leaves the tree unchanged. -/
theorem remove_keyNotFound {t : Tree} {k : Nat} (hroot : t.root ≠ nil)
    (hv : k ∉ keysIn t.root) : remove t k = (t, Except.error Err.keyNotFound) := by
  rw [remove.eq_def]
  cases ht : t.root with
  | nil => exact absurd ht hroot
  | node v h l r =>
    obtain ⟨p, n, b, hsr⟩ := searchTermP_isSome (t := node v h l r) (by simp) k
    have hb : b ≠ 0 := searchTermP_miss (by rwa [ht] at hv) hsr
    dsimp only
    rw [hsr]
    dsimp only
    rw [if_neg hb]

/-- `add_node` preserves the BST property (on success and on failure). -/
theorem bst_add_node {t : Tree} (v : Nat) (hb : bst t.root = true) :
    bst (add_node t v).1.root = true := by
  by_cases hv : v ∈ keysIn t.root
  · rw [add_node_keyExists hb hv]
    exact hb
  · exact (add_node_absent hv).2.2.2 hb

/-- `remove` preserves the BST property (on success and on failure). -/
theorem bst_remove {t : Tree} (k : Nat) (hb : bst t.root = true) :
    bst (remove t k).1.root = true := by
  by_cases hv : k ∈ keysIn t.root
  · obtain ⟨rt2, hr, _, hb2⟩ := remove_present hb hv
    rw [hr]
    exact hb2
  · rw [remove_absent_state hv]
    exact hb

/-- Every tree reachable by `insert`/`remove` sequences is a BST. -/
theorem reachable_bst {t : Tree} (h : Reachable t) : bst t.root = true := by
  induction h with
  | base => rfl
  | ins t v _ ih => exact bst_add_node v ih
  | rem t k _ ih => exact bst_remove k ih

/-! ### `find` -/

/-- `find` on a key held by no node returns `nullopt` (on any tree). -/
theorem find_absent {t : Tree} {k : Nat} (hv : k ∉ keysIn t.root) :
    find t k = none := by
  rw [find.eq_def]
  cases ht : t.root with
  | nil => rfl
  | node v h l r =>
    dsimp only
    cases hsr : searchTermP (node v h l r) k with
    | none => rfl
    | some res =>
      obtain ⟨p, n, b⟩ := res
      have hb : b ≠ 0 := searchTermP_miss (by rwa [ht] at hv) hsr
      dsimp only
      rw [if_neg hb]

/-- `find` on a BST holding the key returns the node with that key. -/
theorem find_present {t : Tree} {k : Nat} (hbst : bst t.root = true)
    (hv : k ∈ keysIn t.root) : ∃ n, find t k = some n ∧ nodeValue n = k := by
  obtain ⟨p, n, hs⟩ := searchTermP_complete hbst hv
  obtain ⟨_, hzero⟩ := searchTermP_sound hs
  obtain ⟨hh, l, r, rfl⟩ := hzero rfl
  cases ht : t.root with
  | nil => rw [ht] at hv; simp [keysIn] at hv
  | node v0 h0 l0 r0 =>
    rw [ht] at hs
    rw [find.eq_def, ht]
    dsimp only
    rw [hs]
    dsimp only
    rw [if_pos rfl]
    exact ⟨node k hh l r, rfl, rfl⟩

/-! ### The in-order iterator visits exactly the in-order key sequence -/

theorem keysIn_length (t : NTree) : (keysIn t).length = sz t := by
  induction t with
  | nil => rfl
  | node v h l r ihl ihr => simp [keysIn, sz, ihl, ihr]; omega

theorem subtreeAt_leftSpine (s : NTree) : subtreeAt s (leftSpine s) = some (leftmostOf s) := by
  induction s with
  | nil => rfl
  | node v h l r ihl ihr =>
    cases l with
    | nil => rfl
    | node lv lh ll lr =>
      show subtreeAt (node v h (node lv lh ll lr) r) (Dir.left :: leftSpine (node lv lh ll lr))
        = some (leftmostOf (node v h (node lv lh ll lr) r))
      rw [show leftmostOf (node v h (node lv lh ll lr) r) = leftmostOf (node lv lh ll lr)
        from rfl]
      exact ihl

theorem leftmostOf_shape (v : Nat) (h : Int) (l r : NTree) :
    ∃ lmv lmh lmr, leftmostOf (node v h l r) = node lmv lmh nil lmr := by
  obtain ⟨lmv, lmh, lmr, hlm, _⟩ := leftmost_head (r := node v h l r) (by simp)
  exact ⟨lmv, lmh, lmr, hlm⟩

theorem tailKeys_leftSpine (t : NTree) : tailKeys t (leftSpine t) = keysIn t := by
  induction t with
  | nil => rfl
  | node v h l r ihl ihr =>
    cases l with
    | nil => simp [leftSpine, tailKeys, keysIn]
    | node lv lh ll lr =>
      show tailKeys (node v h (node lv lh ll lr) r)
        (Dir.left :: leftSpine (node lv lh ll lr)) = _
      rw [show tailKeys (node v h (node lv lh ll lr) r)
          (Dir.left :: leftSpine (node lv lh ll lr))
          = tailKeys (node lv lh ll lr) (leftSpine (node lv lh ll lr)) ++ v :: keysIn r
        from rfl, ihl]
      rfl

/-- Stepping the in-order iterator at a node with a right child: the next
position is the leftmost node of that right child. -/
theorem tailKeys_step_right {t : NTree} {p : Path} {v rv : Nat} {hh rh : Int}
    {l rl rr : NTree}
    (hp : subtreeAt t p = some (node v hh l (node rv rh rl rr))) :
    tailKeys t p = v :: tailKeys t (p ++ Dir.right :: leftSpine (node rv rh rl rr)) := by
  induction p generalizing t with
  | nil =>
    simp only [subtreeAt, Option.some.injEq] at hp
    subst hp
    show v :: keysIn (node rv rh rl rr) = v :: tailKeys (node rv rh rl rr)
      (leftSpine (node rv rh rl rr))
    rw [tailKeys_leftSpine]
  | cons d p ih =>
    cases t with
    | nil => simp [subtreeAt] at hp
    | node w wh tl tr =>
      cases d with
      | left =>
        have hp2 : subtreeAt tl p = some (node v hh l (node rv rh rl rr)) := hp
        show tailKeys tl p ++ w :: keysIn tr = v :: tailKeys (node w wh tl tr)
          (Dir.left :: (p ++ Dir.right :: leftSpine (node rv rh rl rr)))
        rw [ih hp2]
        rfl
      | right =>
        have hp2 : subtreeAt tr p = some (node v hh l (node rv rh rl rr)) := hp
        show tailKeys tr p = v :: tailKeys (node w wh tl tr)
          (Dir.right :: (p ++ Dir.right :: leftSpine (node rv rh rl rr)))
        rw [ih hp2]
        rfl

/-- Stepping the in-order iterator at a node without a right child: climb
past the trailing right edges and stop at that ancestor's parent. -/
theorem tailKeys_step_up {t : NTree} {p : Path} {v : Nat} {hh : Int} {l : NTree}
    (hp : subtreeAt t p = some (node v hh l nil)) :
    tailKeys t p = v :: (if stripRights p = [] then []
      else tailKeys t (stripRights p).dropLast) := by
  induction p generalizing t with
  | nil =>
    simp only [subtreeAt, Option.some.injEq] at hp
    subst hp
    simp [stripRights, tailKeys, keysIn]
  | cons d p ih =>
    cases t with
    | nil => simp [subtreeAt] at hp
    | node w wh tl tr =>
      cases d with
      | left =>
        have hp2 : subtreeAt tl p = some (node v hh l nil) := hp
        show tailKeys tl p ++ w :: keysIn tr = _
        rw [ih hp2]
        cases hsp : stripRights p with
        | nil =>
          rw [show stripRights (Dir.left :: p)
            = match stripRights p with
              | [] => if Dir.left = Dir.right then [] else [Dir.left]
              | q => Dir.left :: q from rfl, hsp]
          simp [tailKeys]
        | cons q0 q1 =>
          rw [show stripRights (Dir.left :: p)
            = match stripRights p with
              | [] => if Dir.left = Dir.right then [] else [Dir.left]
              | q => Dir.left :: q from rfl, hsp]
          simp only [if_neg (by simp : ¬(q0 :: q1 : Path) = []), List.cons_ne_nil,
            if_neg (by simp : ¬(Dir.left :: q0 :: q1 : Path) = [])]
          rw [show (Dir.left :: q0 :: q1 : Path).dropLast
            = Dir.left :: (q0 :: q1 : Path).dropLast from rfl]
          show _ = v :: tailKeys tl (q0 :: q1 : Path).dropLast ++ w :: keysIn tr
          rfl
      | right =>
        have hp2 : subtreeAt tr p = some (node v hh l nil) := hp
        show tailKeys tr p = _
        rw [ih hp2]
        cases hsp : stripRights p with
        | nil =>
          rw [show stripRights (Dir.right :: p)
            = match stripRights p with
              | [] => if Dir.right = Dir.right then [] else [Dir.right]
              | q => Dir.right :: q from rfl, hsp]
          simp
        | cons q0 q1 =>
          rw [show stripRights (Dir.right :: p)
            = match stripRights p with
              | [] => if Dir.right = Dir.right then [] else [Dir.right]
              | q => Dir.right :: q from rfl, hsp]
          simp only [if_neg (by simp : ¬(q0 :: q1 : Path) = []), List.cons_ne_nil,
            if_neg (by simp : ¬(Dir.right :: q0 :: q1 : Path) = [])]
          rw [show (Dir.right :: q0 :: q1 : Path).dropLast
            = Dir.right :: (q0 :: q1 : Path).dropLast from rfl]
          rfl

theorem subtreeAt_node_of_append {t s : NTree} {q rest : Path}
    (h : subtreeAt t (q ++ rest) = some s) (hs : s ≠ nil) :
    ∃ w wh wl wr, subtreeAt t q = some (node w wh wl wr) := by
  rw [subtreeAt_append] at h
  cases hq : subtreeAt t q with
  | none => rw [hq] at h; simp at h
  | some s2 =>
    rw [hq] at h
    simp only [Option.some_bind] at h
    cases s2 with
    | nil =>
      cases rest with
      | nil => simp only [subtreeAt, Option.some.injEq] at h; exact absurd h.symm hs
      | cons d ds => simp [subtreeAt] at h
    | node w wh wl wr => exact ⟨w, wh, wl, wr, rfl⟩

/-- Every path stripped of its trailing right edges is an initial segment
of the original path. -/
theorem stripRights_append (p : Path) : ∃ rest, p = stripRights p ++ rest := by
  induction p with
  | nil => exact ⟨[], rfl⟩
  | cons d p ih =>
    obtain ⟨rest, hrest⟩ := ih
    cases hsp : stripRights p with
    | nil =>
      rw [show stripRights (d :: p)
        = match stripRights p with
          | [] => if d = Dir.right then [] else [d]
          | q => d :: q from rfl, hsp]
      cases d with
      | left => exact ⟨p, by simp⟩
      | right => exact ⟨Dir.right :: p, by simp⟩
    | cons q0 q1 =>
      rw [show stripRights (d :: p)
        = match stripRights p with
          | [] => if d = Dir.right then [] else [d]
          | q => d :: q from rfl, hsp]
      rw [hsp] at hrest
      exact ⟨rest, by simp [hrest]⟩

/-- Running the in-order value iterator from a valid position with enough
fuel yields exactly the remaining in-order keys. -/
theorem runIter_inorder {t : NTree} (fuel : Nat) :
    ∀ (p : Path) (v : Nat) (hh : Int) (l r : NTree),
      subtreeAt t p = some (node v hh l r) →
      (tailKeys t p).length ≤ fuel →
      runIter t inorderNext (some p) fuel = tailKeys t p := by
  induction fuel with
  | zero =>
    intro p v hh l r hp hlen
    cases r with
    | nil => rw [tailKeys_step_up hp] at hlen; simp at hlen
    | node rv rh rl rr => rw [tailKeys_step_right hp] at hlen; simp at hlen
  | succ fuel ih =>
    intro p v hh l r hp hlen
    have hrun : runIter t inorderNext (some p) (fuel + 1)
        = v :: runIter t inorderNext (inorderNext t p) fuel := by
      show (match subtreeAt t p with
        | some (node w _ _ _) => w :: runIter t inorderNext (inorderNext t p) fuel
        | _ => []) = v :: runIter t inorderNext (inorderNext t p) fuel
      rw [hp]
    rw [hrun]
    cases r with
    | node rv rh rl rr =>
      have hnext : inorderNext t p = some (p ++ Dir.right :: leftSpine (node rv rh rl rr)) := by
        rw [inorderNext, hp]
      rw [hnext]
      have hstep := tailKeys_step_right hp
      have hval : subtreeAt t (p ++ Dir.right :: leftSpine (node rv rh rl rr))
          = some (leftmostOf (node rv rh rl rr)) := by
        rw [subtreeAt_append, hp]
        simp only [Option.some_bind]
        show subtreeAt (node rv rh rl rr) (leftSpine (node rv rh rl rr)) = _
        exact subtreeAt_leftSpine (node rv rh rl rr)
      obtain ⟨lmv, lmh, lmr, hlm⟩ := leftmostOf_shape rv rh rl rr
      rw [hlm] at hval
      rw [ih _ lmv lmh nil lmr hval (by rw [hstep] at hlen; simpa using hlen)]
      exact hstep.symm
    | nil =>
      have hstep := tailKeys_step_up hp
      cases hsp : stripRights p with
      | nil =>
        have hnext : inorderNext t p = none := by
          rw [inorderNext, hp, hsp]
        have hnone : runIter t inorderNext none fuel = [] := by cases fuel <;> rfl
        rw [hnext, hstep, hsp, hnone]
        simp
      | cons q0 q1 =>
        have hnext : inorderNext t p = some ((q0 :: q1 : Path).dropLast) := by
          rw [inorderNext, hp, hsp]
        rw [hnext, hstep, hsp, if_neg (by simp : ¬(q0 :: q1 : Path) = [])]
        obtain ⟨qlast, hqlast⟩ : ∃ d, (q0 :: q1 : Path) =
            (q0 :: q1 : Path).dropLast ++ [d] := by
          refine ⟨(q0 :: q1 : Path).getLast (by simp), ?_⟩
          exact (List.dropLast_append_getLast (by simp)).symm
        obtain ⟨rest, hrest⟩ := stripRights_append p
        rw [hsp, hqlast] at hrest
        have hvalid : subtreeAt t ((q0 :: q1 : Path).dropLast ++ ([qlast] ++ rest))
            = some (node v hh l nil) := by rw [← List.append_assoc, ← hrest]; exact hp
        obtain ⟨w, wh, wl, wr, hw⟩ := subtreeAt_node_of_append hvalid (by simp)
        rw [ih _ w wh wl wr hw ?_]
        rw [hstep, hsp, if_neg (by simp : ¬(q0 :: q1 : Path) = []),
          List.length_cons] at hlen
        omega

/-- The in-order value iterator pass produces the in-order key sequence. -/
theorem runInorder_eq_keysIn (t : NTree) : runInorder t = keysIn t := by
  cases t with
  | nil => rfl
  | node v h l r =>
    show runIter (node v h l r) inorderNext (some (leftSpine (node v h l r)))
        (sz (node v h l r) + 1) = _
    obtain ⟨lmv, lmh, lmr, hlm⟩ := leftmostOf_shape v h l r
    have hval := subtreeAt_leftSpine (node v h l r)
    rw [hlm] at hval
    rw [runIter_inorder _ _ lmv lmh nil lmr hval ?_]
    · exact tailKeys_leftSpine (node v h l r)
    · rw [tailKeys_leftSpine, keysIn_length]
      omega

/-! ### Independent positions: replacement lemmas for the copy loop -/

theorem replaceAt_nil_path (c s : NTree) : replaceAt c [] s = s := by
  cases c <;> rfl

theorem incomp_cons {a b : Dir} {p q : Path} (h : Incomp (a :: p) (b :: q))
    (hab : a = b) : Incomp p q := by
  subst hab
  exact ⟨fun hc => h.1 (List.cons_prefix_cons.2 ⟨rfl, hc⟩),
         fun hc => h.2 (List.cons_prefix_cons.2 ⟨rfl, hc⟩)⟩

theorem subtreeAt_replaceAt_of_incomp {p q : Path} (h : Incomp p q) :
    ∀ (c x : NTree), subtreeAt (replaceAt c q x) p = subtreeAt c p := by
  induction p generalizing q with
  | nil => exact absurd List.nil_prefix h.1
  | cons a p ih =>
    cases q with
    | nil => exact absurd List.nil_prefix h.2
    | cons b q =>
      intro c x
      cases c with
      | nil => rfl
      | node v hh l r =>
        by_cases hab : a = b
        · subst hab
          cases a with
          | left =>
            show subtreeAt (replaceAt l q x) p = subtreeAt l p
            exact ih (incomp_cons h rfl) l x
          | right =>
            show subtreeAt (replaceAt r q x) p = subtreeAt r p
            exact ih (incomp_cons h rfl) r x
        · cases a <;> cases b <;> first
            | exact absurd rfl hab
            | rfl

theorem replaceAt_comm {p q : Path} (h : Incomp p q) :
    ∀ (c x y : NTree),
      replaceAt (replaceAt c p x) q y = replaceAt (replaceAt c q y) p x := by
  induction p generalizing q with
  | nil => exact absurd List.nil_prefix h.1
  | cons a p ih =>
    cases q with
    | nil => exact absurd List.nil_prefix h.2
    | cons b q =>
      intro c x y
      cases c with
      | nil => rfl
      | node v hh l r =>
        by_cases hab : a = b
        · subst hab
          cases a with
          | left =>
            show node v hh (replaceAt (replaceAt l p x) q y) r
              = node v hh (replaceAt (replaceAt l q y) p x) r
            rw [ih (incomp_cons h rfl) l x y]
          | right =>
            show node v hh l (replaceAt (replaceAt r p x) q y)
              = node v hh l (replaceAt (replaceAt r q y) p x)
            rw [ih (incomp_cons h rfl) r x y]
        · cases a <;> cases b <;> first
            | exact absurd rfl hab
            | rfl

theorem replaceAt_self_eq {c x : NTree} {p : Path} (h : subtreeAt c p = some x) :
    replaceAt c p x = c := by
  induction p generalizing c with
  | nil => simp only [subtreeAt, Option.some.injEq] at h; rw [replaceAt, h]
  | cons d p ih =>
    cases c with
    | nil => rfl
    | node v hh l r =>
      cases d with
      | left =>
        show node v hh (replaceAt l p x) r = node v hh l r
        rw [ih h]
      | right =>
        show node v hh l (replaceAt r p x) = node v hh l r
        rw [ih h]

theorem replaceAt_replaceAt_same (c : NTree) (p : Path) (x y : NTree) :
    replaceAt (replaceAt c p x) p y = replaceAt c p y := by
  induction p generalizing c with
  | nil => rw [replaceAt_nil_path, replaceAt_nil_path]
  | cons d p ih =>
    cases c with
    | nil => rfl
    | node v hh l r =>
      cases d with
      | left =>
        show node v hh (replaceAt (replaceAt l p x) p y) r = node v hh (replaceAt l p y) r
        rw [ih]
      | right =>
        show node v hh l (replaceAt (replaceAt r p x) p y) = node v hh l (replaceAt r p y)
        rw [ih]

/-- Replacing the left (or right) child slot below a node is replacing the
node by one with that child swapped. -/
theorem replaceAt_child {c : NTree} {p : Path} {v : Nat} {hh : Int} {cl cr : NTree}
    (h : subtreeAt c p = some (node v hh cl cr)) (x : NTree) :
    replaceAt c (p ++ [Dir.left]) x = replaceAt c p (node v hh x cr) ∧
    replaceAt c (p ++ [Dir.right]) x = replaceAt c p (node v hh cl x) := by
  induction p generalizing c with
  | nil =>
    simp only [subtreeAt, Option.some.injEq] at h
    subst h
    constructor
    · show node v hh (replaceAt cl [] x) cr = _
      rw [replaceAt_nil_path, replaceAt_nil_path]
    · show node v hh cl (replaceAt cr [] x) = _
      rw [replaceAt_nil_path, replaceAt_nil_path]
  | cons d p ih =>
    cases c with
    | nil => exact ⟨rfl, rfl⟩
    | node w wh l r =>
      cases d with
      | left =>
        obtain ⟨h1, h2⟩ := ih (c := l) h
        constructor
        · show node w wh (replaceAt l (p ++ [Dir.left]) x) r = _
          rw [h1]; rfl
        · show node w wh (replaceAt l (p ++ [Dir.right]) x) r = _
          rw [h2]; rfl
      | right =>
        obtain ⟨h1, h2⟩ := ih (c := r) h
        constructor
        · show node w wh l (replaceAt r (p ++ [Dir.left]) x) = _
          rw [h1]; rfl
        · show node w wh l (replaceAt r (p ++ [Dir.right]) x) = _
          rw [h2]; rfl

theorem incomp_extend {p q : Path} (h : Incomp p q) (d : Dir) :
    Incomp (p ++ [d]) q := by
  constructor
  · intro hc
    exact h.1 (List.IsPrefix.trans (List.prefix_append p [d]) hc)
  · intro hc
    rcases List.prefix_concat_iff.1 hc with rfl | hc2
    · exact h.1 (List.prefix_append p [d])
    · exact h.2 hc2

theorem incomp_siblings (p : Path) : Incomp (p ++ [Dir.left]) (p ++ [Dir.right]) := by
  constructor
  · intro hc
    have := List.IsPrefix.eq_of_length hc (by simp)
    simp at this
  · intro hc
    have := List.IsPrefix.eq_of_length hc (by simp)
    simp at this

theorem graftAll_replaceAt_comm {rest : List (NTree × Path)} {p : Path}
    (h : ∀ e ∈ rest, Incomp p e.2) :
    ∀ (c x : NTree), graftAll rest (replaceAt c p x) = replaceAt (graftAll rest c) p x := by
  induction rest with
  | nil => intro c x; rfl
  | cons e rest ih =>
    intro c x
    show graftAll rest (replaceAt (replaceAt c p x) e.2 e.1)
      = replaceAt (graftAll rest (replaceAt c e.2 e.1)) p x
    rw [replaceAt_comm (h e (by simp)) c x e.1]
    exact ih (fun e2 he2 => h e2 (by simp [he2])) _ x

theorem subtreeAt_graftAll {rest : List (NTree × Path)} {p : Path}
    (h : ∀ e ∈ rest, Incomp p e.2) :
    ∀ c, subtreeAt (graftAll rest c) p = subtreeAt c p := by
  induction rest with
  | nil => intro c; rfl
  | cons e rest ih =>
    intro c
    show subtreeAt (graftAll rest (replaceAt c e.2 e.1)) p = _
    rw [ih (fun e2 he2 => h e2 (by simp [he2])) _,
      subtreeAt_replaceAt_of_incomp (h e (by simp))]

theorem incomp_symm {p q : Path} (h : Incomp p q) : Incomp q p :=
  ⟨h.2, h.1⟩

/-- The breadth-first copy loop grafts a full clone of every queued source
subtree at its clone position, provided the positions are pairwise
independent and each position currently holds the value-and-height clone
of its source node. -/
theorem copyLoop_spec (fuel : Nat) :
    ∀ (queue : List (NTree × Path)) (clone : NTree),
      (queue.map fun e => 2 * sz e.1 + 1).sum ≤ fuel →
      (∀ e ∈ queue, e.1 ≠ nil ∧ subtreeAt clone e.2 = some (copy_node e.1)) →
      queue.Pairwise (fun e1 e2 => Incomp e1.2 e2.2) →
      copyLoop fuel queue clone = graftAll queue clone := by
  induction fuel with
  | zero =>
    intro queue clone hsum hinv hpw
    cases queue with
    | nil => rw [copyLoop]; rfl
    | cons e rest => simp at hsum
  | succ fuel2 ih =>
    intro queue clone hsum hinv hpw
    cases queue with
    | nil => rw [copyLoop]; rfl
    | cons e rest =>
      obtain ⟨s, p⟩ := e
      have hs : s ≠ nil := (hinv (s, p) (by simp)).1
      have hstub : subtreeAt clone p = some (copy_node s) := (hinv (s, p) (by simp)).2
      have hincomp : ∀ e2 ∈ rest, Incomp p e2.2 :=
        fun e2 he2 => (List.pairwise_cons.1 hpw).1 e2 he2
      have hpwrest : rest.Pairwise (fun e1 e2 => Incomp e1.2 e2.2) :=
        (List.pairwise_cons.1 hpw).2
      have hinvrest : ∀ e2 ∈ rest, e2.1 ≠ nil ∧ subtreeAt clone e2.2 = some (copy_node e2.1) :=
        fun e2 he2 => hinv e2 (by simp [he2])
      have hsumrest : ((s, p) :: rest).map (fun e => 2 * sz e.1 + 1) =
          (2 * sz s + 1) :: rest.map (fun e => 2 * sz e.1 + 1) := rfl
      cases s with
      | nil => exact absurd rfl hs
      | node v hh sl sr =>
        have hGp : subtreeAt (graftAll rest clone) p = some (copy_node (node v hh sl sr)) := by
          rw [subtreeAt_graftAll hincomp]
          exact hstub
        cases sl with
        | nil =>
          cases sr with
          | nil =>
            rw [copyLoop]
            rw [ih rest clone (by rw [hsumrest] at hsum; simp [sz] at hsum ⊢; omega)
              hinvrest hpwrest]
            show graftAll rest clone = graftAll rest (replaceAt clone p (node v hh nil nil))
            rw [show copy_node (node v hh nil nil) = node v hh nil nil from rfl] at hstub
            rw [replaceAt_self_eq hstub]
          | node rv rh rl rr =>
            rw [copyLoop]
            have hsubR : subtreeAt clone (p ++ [Dir.right]) = some nil := by
              rw [subtreeAt_append, hstub]
              rfl
            have hstubR : subtreeAt (replaceAt clone (p ++ [Dir.right])
                (copy_node (node rv rh rl rr))) (p ++ [Dir.right])
                = some (copy_node (node rv rh rl rr)) :=
              subtreeAt_replaceAt_self _ (by rw [hsubR]; rfl)
            have hinc2 : ∀ e2 ∈ rest, Incomp (p ++ [Dir.right]) e2.2 :=
              fun e2 he2 => incomp_extend (hincomp e2 he2) Dir.right
            rw [ih (rest ++ [(node rv rh rl rr, p ++ [Dir.right])]) _
              ?_ ?_ ?_]
            · show graftAll _ _ = graftAll rest (replaceAt clone p (node v hh nil
                (node rv rh rl rr)))
              rw [graftAll, List.foldl_append]
              show replaceAt (graftAll rest (replaceAt clone (p ++ [Dir.right])
                  (copy_node (node rv rh rl rr)))) (p ++ [Dir.right]) (node rv rh rl rr) = _
              rw [graftAll_replaceAt_comm hinc2, replaceAt_replaceAt_same,
                (replaceAt_child hGp (node rv rh rl rr)).2,
                graftAll_replaceAt_comm hincomp]
            · rw [hsumrest] at hsum
              simp [sz] at hsum ⊢
              omega
            · intro e2 he2
              rcases List.mem_append.1 he2 with he2 | he2
              · refine ⟨(hinvrest e2 he2).1, ?_⟩
                rw [subtreeAt_replaceAt_of_incomp (incomp_symm (hinc2 e2 he2))]
                exact (hinvrest e2 he2).2
              · simp only [List.mem_singleton] at he2
                subst he2
                exact ⟨by simp, hstubR⟩
            · rw [List.pairwise_append]
              refine ⟨hpwrest, by simp, ?_⟩
              intro a ha b hb
              simp only [List.mem_singleton] at hb
              subst hb
              exact incomp_symm (hinc2 a ha)
        | node lv lh ll lr =>
          cases sr with
          | nil =>
            rw [copyLoop]
            have hsubL : subtreeAt clone (p ++ [Dir.left]) = some nil := by
              rw [subtreeAt_append, hstub]
              rfl
            have hstubL : subtreeAt (replaceAt clone (p ++ [Dir.left])
                (copy_node (node lv lh ll lr))) (p ++ [Dir.left])
                = some (copy_node (node lv lh ll lr)) :=
              subtreeAt_replaceAt_self _ (by rw [hsubL]; rfl)
            have hinc2 : ∀ e2 ∈ rest, Incomp (p ++ [Dir.left]) e2.2 :=
              fun e2 he2 => incomp_extend (hincomp e2 he2) Dir.left
            rw [ih (rest ++ [(node lv lh ll lr, p ++ [Dir.left])]) _
              ?_ ?_ ?_]
            · show graftAll _ _ = graftAll rest (replaceAt clone p (node v hh
                (node lv lh ll lr) nil))
              rw [graftAll, List.foldl_append]
              show replaceAt (graftAll rest (replaceAt clone (p ++ [Dir.left])
                  (copy_node (node lv lh ll lr)))) (p ++ [Dir.left]) (node lv lh ll lr) = _
              rw [graftAll_replaceAt_comm hinc2, replaceAt_replaceAt_same,
                (replaceAt_child hGp (node lv lh ll lr)).1,
                graftAll_replaceAt_comm hincomp]
            · rw [hsumrest] at hsum
              simp [sz] at hsum ⊢
              omega
            · intro e2 he2
              rcases List.mem_append.1 he2 with he2 | he2
              · refine ⟨(hinvrest e2 he2).1, ?_⟩
                rw [subtreeAt_replaceAt_of_incomp (incomp_symm (hinc2 e2 he2))]
                exact (hinvrest e2 he2).2
              · simp only [List.mem_singleton] at he2
                subst he2
                exact ⟨by simp, hstubL⟩
            · rw [List.pairwise_append]
              refine ⟨hpwrest, by simp, ?_⟩
              intro a ha b hb
              simp only [List.mem_singleton] at hb
              subst hb
              exact incomp_symm (hinc2 a ha)
          | node rv rh rl rr =>
            rw [copyLoop]
            have hsubL : subtreeAt clone (p ++ [Dir.left]) = some nil := by
              rw [subtreeAt_append, hstub]
              rfl
            have hstubL : subtreeAt (replaceAt clone (p ++ [Dir.left])
                (copy_node (node lv lh ll lr))) (p ++ [Dir.left])
                = some (copy_node (node lv lh ll lr)) :=
              subtreeAt_replaceAt_self _ (by rw [hsubL]; rfl)
            have hincLR : Incomp (p ++ [Dir.left]) (p ++ [Dir.right]) :=
              incomp_siblings p
            have hsubR : subtreeAt (replaceAt clone (p ++ [Dir.left])
                (copy_node (node lv lh ll lr))) (p ++ [Dir.right]) = some nil := by
              rw [subtreeAt_replaceAt_of_incomp (incomp_symm hincLR),
                subtreeAt_append, hstub]
              rfl
            have hstubR : subtreeAt (replaceAt (replaceAt clone (p ++ [Dir.left])
                (copy_node (node lv lh ll lr))) (p ++ [Dir.right])
                (copy_node (node rv rh rl rr))) (p ++ [Dir.right])
                = some (copy_node (node rv rh rl rr)) :=
              subtreeAt_replaceAt_self _ (by rw [hsubR]; rfl)
            have hstubL2 : subtreeAt (replaceAt (replaceAt clone (p ++ [Dir.left])
                (copy_node (node lv lh ll lr))) (p ++ [Dir.right])
                (copy_node (node rv rh rl rr))) (p ++ [Dir.left])
                = some (copy_node (node lv lh ll lr)) := by
              rw [subtreeAt_replaceAt_of_incomp hincLR]
              exact hstubL
            have hincL : ∀ e2 ∈ rest, Incomp (p ++ [Dir.left]) e2.2 :=
              fun e2 he2 => incomp_extend (hincomp e2 he2) Dir.left
            have hincR : ∀ e2 ∈ rest, Incomp (p ++ [Dir.right]) e2.2 :=
              fun e2 he2 => incomp_extend (hincomp e2 he2) Dir.right
            rw [ih (rest ++ [(node lv lh ll lr, p ++ [Dir.left]),
              (node rv rh rl rr, p ++ [Dir.right])]) _ ?_ ?_ ?_]
            · show graftAll _ _ = graftAll rest (replaceAt clone p
                (node v hh (node lv lh ll lr) (node rv rh rl rr)))
              rw [show (rest ++ [(node lv lh ll lr, p ++ [Dir.left]),
                  (node rv rh rl rr, p ++ [Dir.right])])
                = (rest ++ [(node lv lh ll lr, p ++ [Dir.left])]) ++
                  [(node rv rh rl rr, p ++ [Dir.right])] by simp]
              rw [graftAll, List.foldl_append, List.foldl_append]
              show replaceAt (replaceAt (graftAll rest
                  (replaceAt (replaceAt clone (p ++ [Dir.left])
                    (copy_node (node lv lh ll lr))) (p ++ [Dir.right])
                    (copy_node (node rv rh rl rr))))
                  (p ++ [Dir.left]) (node lv lh ll lr)) (p ++ [Dir.right])
                  (node rv rh rl rr) = _
              rw [graftAll_replaceAt_comm hincR, graftAll_replaceAt_comm hincL]
              rw [replaceAt_comm (incomp_symm hincLR)]
              rw [replaceAt_replaceAt_same, replaceAt_replaceAt_same]
              rw [(replaceAt_child hGp (node lv lh ll lr)).1]
              have hGp2 : subtreeAt (replaceAt (graftAll rest clone) p
                  (node v hh (node lv lh ll lr) nil)) p
                  = some (node v hh (node lv lh ll lr) nil) :=
                subtreeAt_replaceAt_self _ (by rw [hGp]; rfl)
              rw [(replaceAt_child hGp2 (node rv rh rl rr)).2]
              rw [replaceAt_replaceAt_same]
              rw [graftAll_replaceAt_comm hincomp]
            · rw [hsumrest] at hsum
              simp [sz] at hsum ⊢
              omega
            · intro e2 he2
              rcases List.mem_append.1 he2 with he2 | he2
              · refine ⟨(hinvrest e2 he2).1, ?_⟩
                rw [subtreeAt_replaceAt_of_incomp (incomp_symm (hincR e2 he2)),
                  subtreeAt_replaceAt_of_incomp (incomp_symm (hincL e2 he2))]
                exact (hinvrest e2 he2).2
              · simp only [List.mem_cons, List.mem_singleton, List.not_mem_nil,
                  or_false] at he2
                rcases he2 with rfl | rfl
                · exact ⟨by simp, hstubL2⟩
                · exact ⟨by simp, hstubR⟩
            · rw [List.pairwise_append]
              refine ⟨hpwrest, ?_, ?_⟩
              · refine List.pairwise_cons.2 ⟨?_, by simp⟩
                intro b hb
                simp only [List.mem_singleton] at hb
                subst hb
                exact hincLR
              · intro a ha b hb
                simp only [List.mem_cons, List.mem_singleton, List.not_mem_nil,
                  or_false] at hb
                rcases hb with rfl | rfl
                · exact incomp_symm (hincL a ha)
                · exact incomp_symm (hincR a ha)

/-- `AVLTreeBase::copy` reproduces the source's node graph exactly:
same values, same heights, same shape — and it never writes `_size`. -/
theorem copy_spec (t other : Tree) :
    (copy t other).root = other.root ∧
      (copy t other).size = t.size := by
  rw [copy.eq_def]
  cases ho : other.root with
  | nil =>
    dsimp only
    split <;> simp_all [destroy]
  | node v h l r =>
    dsimp only
    constructor
    · show copyLoop (2 * sz (node v h l r) + 1) [(node v h l r, [])]
        (copy_node (node v h l r)) = node v h l r
      rw [copyLoop_spec (2 * sz (node v h l r) + 1) _ _ (by simp)
        (by
          intro e he
          simp only [List.mem_singleton] at he
          subst he
          exact ⟨by simp, rfl⟩)
        (by simp)]
      show replaceAt (copy_node (node v h l r)) [] (node v h l r) = node v h l r
      rw [replaceAt_nil_path]
    · show (if t.root = nil then t else destroy t).size = t.size
      split <;> rfl

/-! ### A few final shape lemmas -/

theorem searchTermP_node_shape {t : NTree} {k : Nat} {p : Path} {n : NTree} {b : Int}
    (h : searchTermP t k = some (p, n, b)) :
    ∃ nv nh nl nr, n = node nv nh nl nr := by
  induction t generalizing p n b with
  | nil => simp [searchTermP] at h
  | node v hh l r ihl ihr =>
    rw [searchTermP.eq_def] at h
    dsimp only at h
    by_cases h0 : cmpKey k v = 0
    · rw [if_pos h0] at h
      simp only [Option.some.injEq, Prod.mk.injEq] at h
      exact ⟨v, hh, l, r, h.2.1.symm⟩
    · rw [if_neg h0] at h
      by_cases hlt : cmpKey k v < 0
      · rw [if_pos hlt] at h
        cases l with
        | nil =>
          simp only [Option.some.injEq, Prod.mk.injEq] at h
          exact ⟨v, hh, nil, r, h.2.1.symm⟩
        | node lv lh ll lr =>
          dsimp only at h
          cases hrec : searchTermP (node lv lh ll lr) k with
          | none => rw [hrec] at h; simp [consPath] at h
          | some res =>
            obtain ⟨p1, n1, b1⟩ := res
            rw [hrec] at h
            simp only [consPath, Option.some.injEq, Prod.mk.injEq] at h
            obtain ⟨nv, nh, nl, nr, hshape⟩ := ihl hrec
            exact ⟨nv, nh, nl, nr, h.2.1 ▸ hshape⟩
      · rw [if_neg hlt] at h
        cases r with
        | nil =>
          simp only [Option.some.injEq, Prod.mk.injEq] at h
          exact ⟨v, hh, l, nil, h.2.1.symm⟩
        | node rv rh rl rr =>
          dsimp only at h
          cases hrec : searchTermP (node rv rh rl rr) k with
          | none => rw [hrec] at h; simp [consPath] at h
          | some res =>
            obtain ⟨p1, n1, b1⟩ := res
            rw [hrec] at h
            simp only [consPath, Option.some.injEq, Prod.mk.injEq] at h
            obtain ⟨nv, nh, nl, nr, hshape⟩ := ihr hrec
            exact ⟨nv, nh, nl, nr, h.2.1 ▸ hshape⟩

/-- Whenever `remove_node` completes, `_size` has been decremented (every
structural case ends in `--this->_size`). -/
theorem remove_node_ok_size (t : Tree) (v : Nat) :
    (remove_node t v).2 = Except.ok () → (remove_node t v).1.size = t.size - 1 := by
  rw [remove_node.eq_def]
  split
  · intro h; simp at h
  · dsimp only
    split
    · intro h; simp at h
    · split
      · split
        · intro h; simp at h
        · split
          · intro _; rfl
          · intro _; rfl
      · intro h; simp at h

/-- Whenever the public `remove` completes on a nonempty tree, `_size` has
been decremented. -/
theorem remove_ok_size {t : Tree} {k : Nat} (hroot : t.root ≠ nil)
    (h : (remove t k).2 = Except.ok ()) : (remove t k).1.size = t.size - 1 := by
  rw [remove.eq_def] at h ⊢
  cases ht : t.root with
  | nil => exact absurd ht hroot
  | node v hh l r =>
    rw [ht] at h
    dsimp only at h ⊢
    cases hsr : searchTermP (node v hh l r) k with
    | none =>
      rw [hsr] at h
      simp at h
    | some res =>
      obtain ⟨p, n, b⟩ := res
      rw [hsr] at h
      dsimp only at h ⊢
      by_cases hb : b = 0
      · rw [if_pos hb] at h ⊢
        exact remove_node_ok_size t (nodeValue n) h
      · rw [if_neg hb] at h
        simp at h

theorem subtreeAt_nil_path (t : NTree) : subtreeAt t [] = some t := by
  cases t <;> rfl

/-! ### The claims -/

/-- Claim C1: the spec states that after every successful insert/remove
every node satisfies `|height(left) - height(right)| <= 1` and
`height = 1 + max(height(left), height(right))` with absent children
counting 0.  The code breaks the height identity on the very first
insert: `add_node` on an empty tree installs the freshly allocated node
(whose `_height` is initialized to 0) as the root and never calls
`update_node`, so the one-node tree stores height 0 where the claim — and
the code's own `new_height`, which yields 1 on every retraced leaf —
requires 1. -/
theorem claim_C1 :
    (add_node { root := nil, size := 0 } 5).1.root = node 5 0 nil nil ∧
    heightInvB (add_node { root := nil, size := 0 } 5).1.root = false := by
  decide

/-- Claim C2: the spec states that after insert, remove, copy and destroy
`size()` equals the number of nodes reachable from the root.  `destroy`
unlinks every node and clears `_root` but never writes `_size`, and
`copy` never writes `_size` either (the copy constructor even leaves it
uninitialized): after destroying a one-node tree `size()` is still 1
while 0 nodes are reachable, and after copying a one-node tree over a
tree whose `_size` was 42, `size()` stays 42 while 1 node is
reachable. -/
theorem claim_C2 :
    (destroy (add_node { root := nil, size := 0 } 5).1).size = 1 ∧
    sz (destroy (add_node { root := nil, size := 0 } 5).1).root = 0 ∧
    (copy { root := nil, size := 42 } (add_node { root := nil, size := 0 } 5).1).size = 42 ∧
    sz (copy { root := nil, size := 42 } (add_node { root := nil, size := 0 } 5).1).root = 1 := by
  decide

/-- Claim C3 counterexample: `remove(key)` on a tree with zero nodes does
not fail with `EmptyTree` — the source returns silently
(`if (this->_root == nullptr) { return; }`), leaving the tree
unchanged. -/
theorem claim_C3_counterexample :
    remove { root := nil, size := 0 } 5 = ({ root := nil, size := 0 }, Except.ok ()) := by
  rfl

/-- Claim C3 (amended): `remove(key)` on an empty tree returns without an
error and without changing the tree (only the internal `remove_node`
fails with `EmptyTree` on an empty tree); `remove(key)` fails with
`KeyNotFound` when the tree is non-empty and no node's key compares equal
to the given key; and a completed removal from a non-empty tree
decrements `size` by exactly one. -/
theorem claim_C3 (t : Tree) (k : Nat) :
    (t.root = nil → remove t k = (t, Except.ok ()) ∧
      remove_node t k = (t, Except.error Err.emptyTree)) ∧
    (t.root ≠ nil → (∀ w ∈ keysIn t.root, cmpKey k w ≠ 0) →
      remove t k = (t, Except.error Err.keyNotFound)) ∧
    (t.root ≠ nil → 0 < t.size → (remove t k).2 = Except.ok () →
      (remove t k).1.size + 1 = t.size) := by
  refine ⟨?_, ?_, ?_⟩
  · intro hr
    constructor
    · rw [remove.eq_def, hr]
    · rw [remove_node.eq_def, hr]
  · intro hr hno
    have hv : k ∉ keysIn t.root := fun hk => hno k hk (cmpKey_eq_zero.2 rfl)
    exact remove_keyNotFound hr hv
  · intro hr hsz hok
    have hsize := remove_ok_size hr hok
    omega

/-- Claim C3 witness: concrete instances of all three amended parts. -/
theorem claim_C3_witness :
    remove_node { root := nil, size := 2 } 7
      = ({ root := nil, size := 2 }, Except.error Err.emptyTree) ∧
    remove { root := node 1 1 nil nil, size := 1 } 3
      = ({ root := node 1 1 nil nil, size := 1 }, Except.error Err.keyNotFound) ∧
    (remove { root := node 1 1 nil nil, size := 1 } 1).1.size + 1 = 1 :=
  ⟨((claim_C3 { root := nil, size := 2 } 7).1 rfl).2,
   (claim_C3 { root := node 1 1 nil nil, size := 1 } 3).2.1 (by decide) (by decide),
   (claim_C3 { root := node 1 1 nil nil, size := 1 } 1).2.2 (by decide) (by decide)
     (by decide)⟩

/-- Claim C4: the spec states that removing a node with two children
splices in the in-order successor at the target's position and that the
retrace restores the AVL invariants, with the in-order sequence losing
exactly the removed key.  On the tree built from the listed inserts
(initially satisfying the stored-height identity, the balance bound and
BST order), removing 10 (two children; successor 12 has right child 13)
does move the successor 12 into the target's structural position and
yields the in-order sequence minus 10, but the retrace starts at 13 —
the node that inherited the successor's vacated slot — whose own height
is unchanged, so `update_node` exits immediately and node 15 keeps
stored height 3 above two height-1 children: the height invariant the
claim promises is violated. -/
theorem claim_C4 :
    heightInvB (buildTree [10, 5, 20, 2, 7, 15, 30, 1, 3, 12, 17, 25, 40, 13]).root = true ∧
    balancedB (buildTree [10, 5, 20, 2, 7, 15, 30, 1, 3, 12, 17, 25, 40, 13]).root = true ∧
    bst (buildTree [10, 5, 20, 2, 7, 15, 30, 1, 3, 12, 17, 25, 40, 13]).root = true ∧
    (remove (buildTree [10, 5, 20, 2, 7, 15, 30, 1, 3, 12, 17, 25, 40, 13]) 10).2
      = Except.ok () ∧
    nodeValue (remove (buildTree [10, 5, 20, 2, 7, 15, 30, 1, 3, 12, 17, 25, 40, 13]) 10).1.root
      = 12 ∧
    keysIn (remove (buildTree [10, 5, 20, 2, 7, 15, 30, 1, 3, 12, 17, 25, 40, 13]) 10).1.root
      = [1, 2, 3, 5, 7, 12, 13, 15, 17, 20, 25, 30, 40] ∧
    bst (remove (buildTree [10, 5, 20, 2, 7, 15, 30, 1, 3, 12, 17, 25, 40, 13]) 10).1.root
      = true ∧
    heightInvB (remove (buildTree [10, 5, 20, 2, 7, 15, 30, 1, 3, 12, 17, 25, 40, 13]) 10).1.root
      = false := by
  decide

/-- Claim C5: inserting `[5,7,2,4,3,8,10,1,0,6,9]` one at a time into an
empty tree and running the three value-iterator state machines yields
exactly the expected in-order, pre-order and post-order sequences. -/
theorem claim_C5 :
    runInorder (buildTree [5, 7, 2, 4, 3, 8, 10, 1, 0, 6, 9]).root
      = [0, 1, 2, 3, 4, 5, 6, 7, 8, 9, 10] ∧
    runPreorder (buildTree [5, 7, 2, 4, 3, 8, 10, 1, 0, 6, 9]).root
      = [5, 3, 1, 0, 2, 4, 8, 7, 6, 10, 9] ∧
    runPostorder (buildTree [5, 7, 2, 4, 3, 8, 10, 1, 0, 6, 9]).root
      = [0, 2, 1, 4, 3, 6, 7, 9, 10, 8, 5] := by
  decide

/-- Claim C6: on a BST, inserting a value whose key compares equal to an
existing node's key fails with `KeyExists` (the tree untouched); on an
absent key the insert succeeds, `size` grows by one, an empty tree gets
the new node as its root, and otherwise the fresh leaf is linked as the
child of the attachment parent on the branch the search ended with (the
linked tree below is the intermediate state `add_node` builds before the
retrace, which may subsequently rotate the leaf elsewhere). -/
theorem claim_C6 {t : Tree} {v : Nat} :
    (bst t.root = true → v ∈ keysIn t.root →
      add_node t v = (t, Except.error Err.keyExists)) ∧
    (v ∉ keysIn t.root →
      (add_node t v).2 = Except.ok () ∧
      (add_node t v).1.size = t.size + 1 ∧
      (t.root = nil → (add_node t v).1.root = node v 0 nil nil) ∧
      (∀ p n b, searchTermP t.root v = some (p, n, b) →
        subtreeAt (replaceAt t.root (p ++ [if b < 0 then Dir.left else Dir.right])
            (node v 0 nil nil))
          (p ++ [if b < 0 then Dir.left else Dir.right]) = some (node v 0 nil nil))) := by
  constructor
  · exact fun hb hv => add_node_keyExists hb hv
  · intro hv
    obtain ⟨h1, h2, _, _⟩ := add_node_absent hv
    refine ⟨h1, h2, ?_, ?_⟩
    · intro hroot
      rw [add_node.eq_def, hroot]
    · intro p n b hs
      obtain ⟨hsub, _⟩ := searchTermP_sound hs
      obtain ⟨nv, nh, nl, nr, rfl⟩ := searchTermP_node_shape hs
      apply subtreeAt_replaceAt_self
      rw [subtreeAt_append, hsub]
      simp only [Option.some_bind]
      cases hb2 : (if b < 0 then Dir.left else Dir.right) with
      | left =>
        show (subtreeAt nl []).isSome = true
        rw [subtreeAt_nil_path]
        rfl
      | right =>
        show (subtreeAt nr []).isSome = true
        rw [subtreeAt_nil_path]
        rfl

/-- Claim C6 witness: both halves at concrete inputs. -/
theorem claim_C6_witness :
    add_node { root := node 1 1 nil nil, size := 1 } 1
      = ({ root := node 1 1 nil nil, size := 1 }, Except.error Err.keyExists) ∧
    (add_node { root := node 1 1 nil nil, size := 1 } 3).2 = Except.ok () ∧
    (add_node { root := node 1 1 nil nil, size := 1 } 3).1.size = 2 :=
  ⟨(claim_C6 (t := { root := node 1 1 nil nil, size := 1 }) (v := 1)).1
      (by decide) (by decide),
   ((claim_C6 (t := { root := node 1 1 nil nil, size := 1 }) (v := 3)).2 (by decide)).1,
   ((claim_C6 (t := { root := node 1 1 nil nil, size := 1 }) (v := 3)).2 (by decide)).2.1⟩

/-- Claim C7: every tree reachable from the empty tree by `insert` and
`remove` calls is a binary search tree node-for-node, and its in-order
value-iterator pass yields the keys in strictly ascending order. -/
theorem claim_C7 {t : Tree} (h : Reachable t) :
    List.Sorted (· < ·) (runInorder t.root) ∧ bst t.root = true := by
  have hb := reachable_bst h
  constructor
  · rw [runInorder_eq_keysIn]
    exact (bst_iff_sorted _).1 hb
  · exact hb

/-- Claim C7 witness: a concrete reachable tree (two inserts, then a
removal). -/
theorem claim_C7_witness :
    List.Sorted (· < ·) (runInorder
      (remove (add_node (add_node { root := nil, size := 0 } 5).1 3).1 5).1.root) ∧
    bst (remove (add_node (add_node { root := nil, size := 0 } 5).1 3).1 5).1.root = true :=
  claim_C7 (Reachable.rem _ 5 (Reachable.ins _ 3 (Reachable.ins _ 5 Reachable.base)))

/-- Claim C8: on a BST, inserting an absent key and then finding it
returns the inserted value, and removing a present key and then finding
it returns absent. -/
theorem claim_C8 {t : Tree} {k : Nat} (hb : bst t.root = true) :
    (k ∉ keysIn t.root → (find (add_node t k).1 k).map nodeValue = some k) ∧
    (k ∈ keysIn t.root → find (remove t k).1 k = none) := by
  constructor
  · intro hv
    obtain ⟨_, _, hkeys, hbst⟩ := add_node_absent hv
    have hmem : k ∈ keysIn (add_node t k).1.root := (hkeys k).2 (Or.inr rfl)
    obtain ⟨n, hfind, hval⟩ := find_present (hbst hb) hmem
    rw [hfind]
    simp [hval]
  · intro hv
    obtain ⟨rt2, hrem, hkeys, _⟩ := remove_present hb hv
    rw [hrem]
    apply find_absent
    show k ∉ keysIn rt2
    rw [hkeys]
    intro hk
    exact ((sorted_keys_nodup hb).mem_erase_iff.1 hk).1 rfl

/-- Claim C8 witness: both round trips on a one-node tree. -/
theorem claim_C8_witness :
    (find (add_node { root := node 2 1 nil nil, size := 1 } 1).1 1).map nodeValue
      = some 1 ∧
    find (remove { root := node 2 1 nil nil, size := 1 } 2).1 2 = none :=
  ⟨(claim_C8 (t := { root := node 2 1 nil nil, size := 1 }) (k := 1)
      (by decide)).1 (by decide),
   (claim_C8 (t := { root := node 2 1 nil nil, size := 1 }) (k := 2)
      (by decide)).2 (by decide)⟩

/-- Claim C9: `copy` reproduces the source tree's node graph exactly —
the same shape with the same values and the same stored heights (the
clone of every node keeps `_value` and `_height`).  The copy is built
from fresh allocations only, so in this state-passing embedding the
source tree value is a distinct, immutable structure and later mutations
of the copy cannot affect it. -/
theorem claim_C9 (t other : Tree) : (copy t other).root = other.root :=
  (copy_spec t other).1

/-- Claim C10: whenever `add_node` fails with `KeyExists`, the returned
tree state is exactly the input tree — no node was allocated or linked,
`_size` kept its value and every node's fields are unchanged (the
duplicate check happens on the read-only search before any mutation). -/
theorem claim_C10 {t : Tree} {v : Nat}
    (h : (add_node t v).2 = Except.error Err.keyExists) : (add_node t v).1 = t := by
  rw [add_node.eq_def] at h ⊢
  cases ht : t.root with
  | nil =>
    rw [ht] at h
    simp at h
  | node v0 h0 l r =>
    rw [ht] at h
    dsimp only at h ⊢
    cases hs : searchTermP (node v0 h0 l r) v with
    | none => rfl
    | some res =>
      obtain ⟨p, n, b⟩ := res
      rw [hs] at h
      dsimp only at h ⊢
      by_cases hb : b = 0
      · rw [if_pos hb]
      · rw [if_neg hb] at h
        simp at h

/-- Claim C10 witness: inserting a duplicate into a one-node tree leaves
the state unchanged. -/
theorem claim_C10_witness :
    (add_node { root := node 1 1 nil nil, size := 1 } 1).1
      = { root := node 1 1 nil nil, size := 1 } :=
  claim_C10 (by decide)

end Avltree
